import Mathlib

/-!
# A verification model of the `lsm_engine` key-value store

This file gives a shallow embedding, in Lean 4, of the `lsm_engine` crate
(an embedded LSM-tree key-value store: `src/lib.rs`, `src/sst.rs`,
`src/memtable.rs`, `src/kv.rs`, `src/wal.rs`) and proves properties of the
embedded definitions.

Modelling conventions:
* Keys and values are Lean `String`s, as in the source.  Rust compares
  `String`s by their UTF-8 bytes; since UTF-8 preserves code-point order,
  that order coincides with lexicographic order on the list of characters,
  which we implement executably as `charsLt` / `keyLt`.
* A segment file is modelled as the list of records it contains, one per
  line; file offsets are modelled as record indices (every offset the
  program stores or reuses is a pre-write offset, i.e. a record boundary,
  so the byte-level and record-level views are isomorphic).  Every
  position-mutating segment method of the source restores the file cursor
  on exit, and writes always happen with the cursor at end-of-file, so
  `tell` is modelled as the current record count.
* Filesystem I/O cannot fail in the model; the only representable error of
  `sst::SstError` that pure execution can produce is `UnsortedWrite`.
  Decode errors are modelled separately (see `SegLine` below) for the
  claims about malformed segment files.
* `Instant::now()` timestamps are modelled by a monotone counter (`clock`)
  threaded through the engine; each newly created segment receives the
  current clock value, which is then incremented.
* The loop of `SstMerger::next` is not structurally recursive, so the
  merge stream takes an explicit fuel argument; callers always passfuel
  at least the total number of pending records plus heap entries, which
  (as the fuel-irrelevance lemma shows) makes the fuel bound invisible.
-/

/-- Lexicographic strict order on lists of characters: the order Rust uses
for `String` (byte-wise comparison of UTF-8, which agrees with code-point
lexicographic order). -/
def charsLt : List Char → List Char → Bool
  | [], [] => false
  | [], _ :: _ => true
  | _ :: _, [] => false
  | a :: as, b :: bs => if a < b then true else if b < a then false else charsLt as bs

/-- Strict order on keys, as Rust's `Ord for String`. -/
def keyLt (a b : String) : Bool := charsLt a.data b.data

/-- `a ≤ b` on keys: `¬ b < a`. -/
def keyLe (a b : String) : Bool := ! keyLt b a

theorem charsLt_irrefl (l : List Char) : charsLt l l = false := by
  induction l with
  | nil => rfl
  | cons a as ih => simp [charsLt, ih]

theorem charsLt_trans {a b c : List Char} (h1 : charsLt a b = true)
    (h2 : charsLt b c = true) : charsLt a c = true := by
  induction a generalizing b c with
  | nil =>
    cases b with
    | nil => simp [charsLt] at h1
    | cons y ys =>
      cases c with
      | nil => simp [charsLt] at h2
      | cons z zs => simp [charsLt]
  | cons x xs ih =>
    cases b with
    | nil => simp [charsLt] at h1
    | cons y ys =>
      cases c with
      | nil => simp [charsLt] at h2
      | cons z zs =>
        simp only [charsLt] at h1 h2 ⊢
        rcases lt_trichotomy x y with hxy | hxy | hxy
        · rcases lt_trichotomy y z with hyz | hyz | hyz
          · simp [lt_trans hxy hyz]
          · subst hyz; simp [hxy]
          · rw [if_neg (lt_asymm hyz), if_pos hyz] at h2; exact Bool.noConfusion h2
        · subst hxy
          rw [if_neg (lt_irrefl x), if_neg (lt_irrefl x)] at h1
          rcases lt_trichotomy x z with hxz | hxz | hxz
          · simp [hxz]
          · subst hxz
            rw [if_neg (lt_irrefl x), if_neg (lt_irrefl x)] at h2 ⊢
            exact ih h1 h2
          · rw [if_neg (lt_asymm hxz), if_pos hxz] at h2; exact Bool.noConfusion h2
        · rw [if_neg (lt_asymm hxy), if_pos hxy] at h1; exact Bool.noConfusion h1

theorem charsLt_asymm {a b : List Char} (h : charsLt a b = true) :
    charsLt b a = false := by
  by_contra hc
  have hba : charsLt b a = true := by
    cases hcb : charsLt b a with
    | false => exact absurd hcb hc
    | true => rfl
  have := charsLt_trans h hba
  rw [charsLt_irrefl] at this
  exact Bool.false_ne_true this

theorem charsLt_antisymm {a b : List Char} (h1 : charsLt a b = false)
    (h2 : charsLt b a = false) : a = b := by
  induction a generalizing b with
  | nil =>
    cases b with
    | nil => rfl
    | cons y ys => simp [charsLt] at h1
  | cons x xs ih =>
    cases b with
    | nil => simp [charsLt] at h2
    | cons y ys =>
      simp only [charsLt] at h1 h2
      by_cases hxy : x < y
      · simp [hxy] at h1
      · by_cases hyx : y < x
        · simp [hyx, lt_asymm hyx] at h2
        · have hxyeq : x = y := le_antisymm (not_lt.mp hyx) (not_lt.mp hxy)
          subst hxyeq
          simp [hxy] at h1 h2
          rw [ih h1 h2]

theorem keyLt_irrefl (a : String) : keyLt a a = false := charsLt_irrefl _

theorem keyLt_trans {a b c : String} (h1 : keyLt a b = true)
    (h2 : keyLt b c = true) : keyLt a c = true := charsLt_trans h1 h2

theorem keyLt_asymm {a b : String} (h : keyLt a b = true) :
    keyLt b a = false := charsLt_asymm h

theorem keyLt_antisymm {a b : String} (h1 : keyLt a b = false)
    (h2 : keyLt b a = false) : a = b :=
  String.ext (charsLt_antisymm h1 h2)

theorem keyLt_total (a b : String) :
    keyLt a b = true ∨ keyLt b a = true ∨ a = b := by
  cases h1 : keyLt a b with
  | true => exact Or.inl rfl
  | false =>
    cases h2 : keyLt b a with
    | true => exact Or.inr (Or.inl rfl)
    | false => exact Or.inr (Or.inr (keyLt_antisymm h1 h2))

theorem keyLe_refl (a : String) : keyLe a a = true := by
  simp [keyLe, keyLt_irrefl]

theorem keyLe_of_lt {a b : String} (h : keyLt a b = true) : keyLe a b = true := by
  simp [keyLe, keyLt_asymm h]

theorem keyLt_of_not_le {a b : String} (h : keyLe a b = false) :
    keyLt b a = true := by
  simpa [keyLe] using h

theorem keyLe_antisymm {a b : String} (h1 : keyLe a b = true)
    (h2 : keyLe b a = true) : a = b := by
  simp [keyLe] at h1 h2
  exact (keyLt_antisymm h2 h1)

theorem keyLt_trans_le {a b c : String} (h1 : keyLt a b = true)
    (h2 : keyLe b c = true) : keyLt a c = true := by
  simp only [keyLe, Bool.not_eq_true', Bool.not_eq_false] at h2
  rcases keyLt_total b c with h | h | h
  · exact keyLt_trans h1 h
  · rw [h2] at h; exact Bool.noConfusion h
  · exact h ▸ h1

theorem keyLe_trans {a b c : String} (h1 : keyLe a b = true)
    (h2 : keyLe b c = true) : keyLe a c = true := by
  simp only [keyLe, Bool.not_eq_true', Bool.not_eq_false] at h1 h2 ⊢
  cases hca : keyLt c a with
  | false => rfl
  | true =>
    rcases keyLt_total a b with h | h | h
    · have hcb := keyLt_trans hca h
      rw [h2] at hcb; exact Bool.noConfusion hcb
    · rw [h1] at h; exact Bool.noConfusion h
    · subst h; rw [h2] at hca; exact Bool.noConfusion hca

theorem keyLe_of_lt_or_eq {a b : String} (h : keyLt a b = true ∨ a = b) :
    keyLe a b = true := by
  rcases h with h | h
  · exact keyLe_of_lt h
  · subst h; exact keyLe_refl a

theorem keyLt_or_ge (a b : String) : keyLt a b = true ∨ keyLe b a = true := by
  rcases keyLt_total a b with h | h | h
  · exact Or.inl h
  · exact Or.inr (keyLe_of_lt h)
  · exact Or.inr (keyLe_of_lt_or_eq (Or.inr h.symm))

/-- A key-value record (`sst::KVPair` / `kv::KVPair`). -/
structure KVPair where
  key : String
  value : String
deriving Repr, DecidableEq

/-- The tombstone sentinel `TOMBSTONE_VALUE` of `lib.rs`: a fixed 20-character
alphanumeric string produced once from a PRNG seeded with 20, reused for the
whole process.  Its exact characters are irrelevant to the engine (only that
no user value collides with it), so the model fixes a concrete 20-character
alphanumeric string. -/
def TOMBSTONE_VALUE : String := "Fq0yON8bSdVc2mLOwJdO"

/-- Errors of `sst::SstError`.  `Disconnect` (I/O) and `JsonParsing` (decode)
exist in the source but cannot arise in the pure model on well-formed
segment data; `UnsortedWrite` carries the previous and current key. -/
inductive SstError where
  | UnsortedWrite (previous current : String)
  | Disconnect (msg : String)
  | JsonParsing (msg : String)
deriving Repr, DecidableEq

/-- A sorted segment (`sst::Segment`): the records of its backing file, the
last written key, and its creation timestamp (`created_at : Instant`,
modelled by a monotone counter).  The source also stores `size`, which
always equals the number of records written, i.e. `records.length` here. -/
structure Segment where
  records : List KVPair
  previous_key : Option String
  created_at : Nat
deriving Repr, DecidableEq

/-- `Segment::temp()` / `Segment::default()`: a fresh empty segment stamped
with the current time.  (Whether the backing file is a named file or an
anonymous temp file is invisible in the model.) -/
def Segment.temp (now : Nat) : Segment :=
  { records := [], previous_key := none, created_at := now }

/-- `Segment::size`. -/
def Segment.size (s : Segment) : Nat := s.records.length

/-- `Segment::tell`: the current file offset.  All engine code paths keep
the cursor at end-of-file between writes (each read/search restores the
position it found), so `tell` is the record count. -/
def Segment.tell (s : Segment) : Nat := s.records.length

/-- `Segment::write` (including the `validate` check): refuse a key smaller
than the previously written one with `UnsortedWrite { previous, current }`,
otherwise capture the pre-write offset, append the encoded record, bump
`size` and `previous_key`, and return the pre-write offset. -/
def Segment.write (s : Segment) (key value : String) : Except SstError (Nat × Segment) :=
  match s.previous_key with
  | some prev =>
    if keyLt key prev then
      .error (.UnsortedWrite prev key)
    else
      .ok (s.tell,
        { records := s.records ++ [⟨key, value⟩], previous_key := some key,
          created_at := s.created_at })
  | none =>
    .ok (s.tell,
      { records := s.records ++ [⟨key, value⟩], previous_key := some key,
        created_at := s.created_at })

/-- `Segment::search_from`: seek to `offset`, scan forward for the first
record whose key is `≥ key`; return its value if that key equals `key`.
The cursor restoration of the source is invisible (the model keeps no
cursor). -/
def Segment.search_from (s : Segment) (key : String) (offset : Nat) : Option String :=
  match (s.records.drop offset).find? (fun x => keyLe key x.key) with
  | some x => if x.key = key then some x.value else none
  | none => none

/-- `Segment::search_from_start`. -/
def Segment.search_from_start (s : Segment) (key : String) : Option String :=
  s.search_from key 0

/-- `Segment::read_from_start` (reset, then decode every line): on the
engine's own well-formed segments this is just the record list. -/
def Segment.read_from_start (s : Segment) : List KVPair := s.records

/-- If `search_from` returns a value, some record of the segment holds
exactly that key and value. -/
theorem Segment.search_from_mem {s : Segment} {key : String} {offset : Nat}
    {v : String} (h : s.search_from key offset = some v) :
    ⟨key, v⟩ ∈ s.records := by
  unfold Segment.search_from at h
  cases hf : (s.records.drop offset).find? (fun x => keyLe key x.key) with
  | none => rw [hf] at h; cases h
  | some x =>
    rw [hf] at h
    by_cases hk : x.key = key
    · simp [hk] at h
      have hmem := List.mem_of_find?_eq_some hf
      have : x = ⟨key, v⟩ := by
        cases x with
        | mk xk xv => simp at hk h; rw [hk, h]
      rw [← this]
      exact (s.records.drop_sublist offset).mem hmem
    · simp [hk] at h

/-- If the record at index `offset` has key `key`, `search_from key offset`
finds it immediately and returns its value. -/
theorem Segment.search_from_here {s : Segment} {key v : String} {offset : Nat}
    (h : s.records[offset]? = some ⟨key, v⟩) :
    s.search_from key offset = some v := by
  have hdrop : s.records.drop offset = ⟨key, v⟩ :: s.records.drop (offset + 1) := by
    have hlt : offset < s.records.length := by
      by_contra hge
      rw [List.getElem?_eq_none (by omega)] at h
      cases h
    conv_lhs => rw [List.drop_eq_getElem_cons hlt]
    have : s.records[offset] = ⟨key, v⟩ := by
      have := List.getElem?_eq_getElem hlt
      rw [this] at h
      exact Option.some_injective _ h
    rw [this]
  unfold Segment.search_from
  rw [hdrop]
  rw [List.find?_cons_of_pos _ (by simp [keyLe_refl])]
  simp

/-- Insert into a sorted association list: the model of `BTreeMap::insert`
(replace the value if the key is present, else insert in order). -/
def btInsert {α : Type} (k : String) (v : α) : List (String × α) → List (String × α)
  | [] => [(k, v)]
  | (k', v') :: rest =>
    if keyLt k k' then (k, v) :: (k', v') :: rest
    else if k = k' then (k, v) :: rest
    else (k', v') :: btInsert k v rest

/-- `BTreeMap::get`: exact lookup. -/
def btLookup {α : Type} (k : String) (l : List (String × α)) : Option α :=
  (l.find? (fun p => p.1 = k)).map (·.2)

/-- `BTreeMap::range((Unbounded, Included(k))).next_back()`: the greatest
entry whose key is `≤ k` (the list is maintained in ascending key order). -/
def btLookupLE {α : Type} (k : String) : List (String × α) → Option (String × α)
  | [] => none
  | (k', v') :: rest =>
    if keyLe k' k then
      match btLookupLE k rest with
      | some r => some r
      | none => some (k', v')
    else none

/-- `memtable::Memtable` as used by `lib.rs`: a capacity-bounded sorted
map from keys to values (the engine stores the tombstone sentinel as an
ordinary value). -/
structure Memtable where
  entries : List (String × String)
  capacity : Nat
deriving Repr, DecidableEq

/-- `Memtable::insert`: unconditional upsert. -/
def Memtable.insert (m : Memtable) (k v : String) : Memtable :=
  { m with entries := btInsert k v m.entries }

/-- `Memtable::get`. -/
def Memtable.get (m : Memtable) (k : String) : Option String :=
  btLookup k m.entries

/-- `Memtable::contains`. -/
def Memtable.contains (m : Memtable) (k : String) : Bool :=
  (m.get k).isSome

/-- `Memtable::at_capacity`: current count equals the capacity exactly. -/
def Memtable.at_capacity (m : Memtable) : Bool :=
  m.entries.length == m.capacity

/-- `Memtable::drain`: all entries in ascending key order, and the emptied
table. -/
def Memtable.drain (m : Memtable) : List (String × String) × Memtable :=
  (m.entries, { m with entries := [] })

/-- `sst::MetaKey`: a record tagged with its source segment's timestamp and
index, ordered by key ascending with ties broken by timestamp descending
(newest first). -/
structure MetaKey where
  key : String
  value : String
  timestamp : Nat
  which_segment : Nat
deriving Repr, DecidableEq

/-- The heap order on `MetaKey` (`Ord for MetaKey`):
`key.cmp(other.key).then(timestamp.cmp(other.timestamp).reverse())`. -/
def metaLe (a b : MetaKey) : Bool :=
  keyLt a.key b.key || (a.key = b.key && decide (b.timestamp ≤ a.timestamp))

/-- Pop a least element (w.r.t. `metaLe`) from the heap, modelled as a
list; returns it together with the remaining entries.
(`BinaryHeap::<MetaKey, MinComparator>::pop`.) -/
def popMin : List MetaKey → Option (MetaKey × List MetaKey)
  | [] => none
  | m :: rest =>
    match popMin rest with
    | none => some (m, rest)
    | some (m', rest') => if metaLe m m' then some (m, rest) else some (m', m :: rest')

/-- The state of `sst::SstMerger`: the heap, one (already advanced)
iterator per input segment, and the key emitted last. -/
structure MergeState where
  heap : List MetaKey
  segment_iterators : List (List KVPair)
  previous_key : Option String
deriving Repr, DecidableEq

/-- The stream of records emitted by repeatedly calling
`SstMerger::next`.  The loop in `next` pops the minimum; if its key equals
`previous_key` the entry is discarded and — exactly as in the source —
the popped entry's source iterator is **not** advanced, so the rest of
that segment never reaches the heap.  On emission the source iterator is
advanced and its next record pushed (inheriting timestamp and index).
`fuel` bounds the number of loop iterations; every call site passes at
least `mergeWeight`, which suffices (see `mergeStream_fuel`). -/
def mergeStream : Nat → MergeState → List KVPair
  | 0, _ => []
  | fuel + 1, s =>
    match popMin s.heap with
    | none => []
    | some (m, rest) =>
      if s.previous_key = some m.key then
        mergeStream fuel { s with heap := rest }
      else
        match s.segment_iterators[m.which_segment]? with
        | some (nxt :: tl) =>
          ⟨m.key, m.value⟩ ::
            mergeStream fuel
              { heap := ⟨nxt.key, nxt.value, m.timestamp, m.which_segment⟩ :: rest,
                segment_iterators := s.segment_iterators.set m.which_segment tl,
                previous_key := some m.key }
        | _ =>
          ⟨m.key, m.value⟩ :: mergeStream fuel { s with heap := rest, previous_key := some m.key }

/-- Total number of pending entries: enough fuel for `mergeStream`. -/
def mergeWeight (s : MergeState) : Nat :=
  s.heap.length + (s.segment_iterators.map List.length).sum

/-- The seeding loop of `SstMerger::new`: walk the input iterators with
their index `i`; push the head of each non-empty one onto the heap,
tagged with the segment's timestamp and index. -/
def seedHeap : Nat → List (List KVPair × Nat) → List MetaKey
  | _, [] => []
  | i, (recs, ts) :: rest =>
    match recs.head? with
    | some kv => ⟨kv.key, kv.value, ts, i⟩ :: seedHeap (i + 1) rest
    | none => seedHeap (i + 1) rest

/-- `SstMerger::new`: seed the heap with the first record of every
non-empty input iterator (tagged with the segment's timestamp and index)
and keep the advanced iterators. -/
def initMergeState (inputs : List (List KVPair × Nat)) : MergeState :=
  { heap := seedHeap 0 inputs,
    segment_iterators := inputs.map (fun p => p.1.tail),
    previous_key := none }

/-- The writing loop of `sst::merge`: append each emitted record to the
current output segment, sealing it and opening a fresh temporary segment
whenever its record count has reached `segment_size`; record each
callback invocation `(output_segment_index, pre_write_offset, key)` in
order; seal the final segment iff non-empty. -/
def mergeWriteLoop (segment_size : Nat) :
    List KVPair → Segment → Nat → List Segment → List (Nat × Nat × String) → Nat →
    Except SstError (List Segment × List (Nat × Nat × String) × Nat)
  | [], segment, _, res, cbs, now =>
    if segment.size > 0 then .ok (res ++ [segment], cbs, now) else .ok (res, cbs, now)
  | kv :: stream, segment, segment_count, res, cbs, now =>
    if segment.size = segment_size then
      match (Segment.temp now).write kv.key kv.value with
      | .error e => .error e
      | .ok (offset, seg') =>
        mergeWriteLoop segment_size stream seg' (segment_count + 1) (res ++ [segment])
          (cbs ++ [(segment_count + 1, offset, kv.key)]) (now + 1)
    else
      match segment.write kv.key kv.value with
      | .error e => .error e
      | .ok (offset, seg') =>
        mergeWriteLoop segment_size stream seg' segment_count res
          (cbs ++ [(segment_count, offset, kv.key)]) now

/-- `sst::merge`: open a from-start iterator on every input segment, run
the k-way merge, and chunk the emitted stream into fresh segments of at
most `segment_size` records.  Returns the new segments, the ordered list
of callback invocations, and the advanced clock.  (The `persist` flag of
the source only chooses between a named file and an anonymous temp file
for each output segment, which is invisible in the model.) -/
def merge (segments : List Segment) (segment_size : Nat) (now : Nat) :
    Except SstError (List Segment × List (Nat × Nat × String) × Nat) :=
  let st := initMergeState (segments.map (fun s => (s.read_from_start, s.created_at)))
  mergeWriteLoop segment_size (mergeStream (mergeWeight st) st) (Segment.temp now) 0 [] []
    (now + 1)

/-- The engine state (`LSMEngine` in `lib.rs`): memtable, segments
(oldest first), sparse index mapping a key to `(key_offset,
segment_index)`, configuration, optional WAL (modelled by the list of
records in the WAL file), plus the model clock for `Instant::now()`. -/
structure LSMEngine where
  memtable : Memtable
  segments : List Segment
  segment_size : Nat
  sparse_memory_index : List (String × (Nat × Nat))
  sparse_offset : Nat
  wal : Option (List KVPair)
  clock : Nat
deriving Repr, DecidableEq

/-- `LSMEngine::new` (reached via `LSMBuilder::build`).  The source panics
when `segment_size < inmemory_capacity`; the claims only concern valid
configurations, so the model keeps the constructor total and theorems add
the validity hypothesis where it matters. -/
def LSMEngine.new (inmemory_capacity segment_size sparse_offset : Nat)
    (wal : Option (List KVPair)) : LSMEngine :=
  { memtable := { entries := [], capacity := inmemory_capacity },
    segments := [], segment_size, sparse_memory_index := [], sparse_offset, wal,
    clock := 0 }

/-- Write a drained batch of pairs into a segment in order, propagating
the first error (the loop body of `flush_memtable`). -/
def segWriteAll : Segment → List (String × String) → Except SstError Segment
  | seg, [] => .ok seg
  | seg, (k, v) :: rest =>
    match seg.write k v with
    | .error e => .error e
    | .ok (_, seg') => segWriteAll seg' rest

/-- `LSMEngine::flush_memtable`: drain the memtable into a fresh temporary
segment, writing each pair in ascending key order. -/
def LSMEngine.flush_memtable (e : LSMEngine) : Except SstError (Segment × LSMEngine) :=
  let (entries, memtable') := e.memtable.drain
  match segWriteAll (Segment.temp e.clock) entries with
  | .error er => .error er
  | .ok seg => .ok (seg, { e with memtable := memtable', clock := e.clock + 1 })

/-- The callback closure of `LSMEngine::merge_segments`, applied to the
recorded invocations: rebuild the sparse index with every
`sparse_offset`-th emitted key, in global emission order. -/
def buildSparse (sparse_offset : Nat) :
    List (Nat × Nat × String) → Nat → List (String × (Nat × Nat)) →
    List (String × (Nat × Nat))
  | [], _, idx => idx
  | (segment_index, key_offset, key) :: cbs, count, idx =>
    buildSparse sparse_offset cbs (count + 1)
      (if count % sparse_offset = 0 then btInsert key (key_offset, segment_index) idx else idx)

/-- `LSMEngine::merge_segments`: clear the sparse index, merge the whole
segment list, and rebuild the index from the merge callbacks. -/
def LSMEngine.merge_segments (e : LSMEngine) : Except SstError LSMEngine :=
  match merge e.segments e.segment_size e.clock with
  | .error er => .error er
  | .ok (segs, cbs, clock') =>
    .ok { e with segments := segs, clock := clock',
                 sparse_memory_index := buildSparse e.sparse_offset cbs 0 [] }

/-- Step 1 of `LSMEngine::write` (and of `delete`): if a WAL is present,
append the record to it. -/
def walAppend (e : LSMEngine) (key value : String) : LSMEngine :=
  match e.wal with
  | some w => { e with wal := some (w ++ [⟨key, value⟩]) }
  | none => e

/-- Steps 2–3 of `LSMEngine::write` (everything after the WAL append):
if the memtable is at capacity and does not already contain the key,
flush it to a fresh segment, push the segment, insert the new pair into
the now-empty memtable and run a merge pass; otherwise just insert. -/
def writeCore (e : LSMEngine) (key value : String) : Except SstError LSMEngine :=
  if e.memtable.at_capacity && ! e.memtable.contains key then
    match e.flush_memtable with
    | .error er => .error er
    | .ok (new_segment, e1) =>
      LSMEngine.merge_segments
        { e1 with segments := e1.segments ++ [new_segment],
                  memtable := e1.memtable.insert key value }
  else
    .ok { e with memtable := e.memtable.insert key value }

/-- `LSMEngine::write`. -/
def LSMEngine.write (e : LSMEngine) (key value : String) : Except SstError LSMEngine :=
  writeCore (walAppend e key value) key value

/-- The tail of the read loop: for segments after the probed one, search
from the start of each; stop at the first hit, translating a tombstone
into `none`. -/
def scanTail (key : String) : List Segment → Option String
  | [] => none
  | seg :: rest =>
    match seg.search_from_start key with
    | some v => if v = TOMBSTONE_VALUE then none else some v
    | none => scanTail key rest

/-- The read loop over `segments[segment_index ..]`: the first probed
segment is searched from `key_offset`, later ones from the start. -/
def readSegments (key : String) (segments : List Segment)
    (segment_index key_offset : Nat) : Option String :=
  match segments.drop segment_index with
  | [] => none
  | seg :: rest =>
    match seg.search_from key key_offset with
    | some v => if v = TOMBSTONE_VALUE then none else some v
    | none => scanTail key rest

/-- `LSMEngine::read`: memtable first (tombstone ⇒ `none`); otherwise
probe the sparse index for the greatest indexed key `≤ key` (absence ⇒
`none`) and scan the segment cascade from the indexed position.  The
source returns `Result<Option<String>>` but the only failure sources are
I/O and decoding, which cannot fail in the model, so `read` is pure. -/
def LSMEngine.read (e : LSMEngine) (key : String) : Option String :=
  match e.memtable.get key with
  | some v => if v = TOMBSTONE_VALUE then none else some v
  | none =>
    match btLookupLE key e.sparse_memory_index with
    | none => none
    | some (_, key_offset, segment_index) =>
      readSegments key e.segments segment_index key_offset

/-- `LSMEngine::delete`: log the tombstone to the WAL, then delegate to
`write` (which logs it again). -/
def LSMEngine.delete (e : LSMEngine) (key : String) : Except SstError LSMEngine :=
  (walAppend e key TOMBSTONE_VALUE).write key TOMBSTONE_VALUE

/-- `LSMEngine::contains`. -/
def LSMEngine.contains (e : LSMEngine) (key : String) : Bool :=
  (e.read key).isSome

/-- `LSMEngine::clear`: drop the segments and the sparse index.  (The
memtable is not touched.) -/
def LSMEngine.clear (e : LSMEngine) : LSMEngine :=
  { e with segments := [], sparse_memory_index := [] }

/-- The replay loop of `recover_from`: feed every record of the log to
`write`, stopping at the first error. -/
def replayWal : LSMEngine → List KVPair → Except SstError LSMEngine
  | e, [] => .ok e
  | e, kv :: rest =>
    match e.write kv.key kv.value with
    | .error er => .error er
    | .ok e' => replayWal e' rest

/-- `LSMEngine::recover_from`: clear segments and sparse index, replay
every record of the given log file via `write`, then adopt the log file
as the engine's active WAL. -/
def LSMEngine.recover_from (e : LSMEngine) (wal_file : List KVPair) :
    Except SstError LSMEngine :=
  match replayWal e.clear wal_file with
  | .error er => .error er
  | .ok e' => .ok { e' with wal := some wal_file }

/-- A public mutating operation of the engine. -/
inductive Op where
  | write (key value : String)
  | delete (key : String)
deriving Repr, DecidableEq

/-- The key an operation refers to. -/
def Op.key : Op → String
  | .write k _ => k
  | .delete k => k

/-- Run one operation. -/
def execOp (e : LSMEngine) : Op → Except SstError LSMEngine
  | .write k v => e.write k v
  | .delete k => e.delete k

/-- Run a sequence of operations, stopping at the first error. -/
def execOps : LSMEngine → List Op → Except SstError LSMEngine
  | e, [] => .ok e
  | e, op :: ops =>
    match execOp e op with
    | .error er => .error er
    | .ok e' => execOps e' ops

/-! ## Small facts about the sorted-map helpers and the engine's steps -/

theorem btLookup_insert_self {α : Type} (k : String) (v : α) (l : List (String × α)) :
    btLookup k (btInsert k v l) = some v := by
  induction l with
  | nil => simp [btInsert, btLookup]
  | cons p rest ih =>
    obtain ⟨k', v'⟩ := p
    by_cases hlt : keyLt k k' = true
    · simp [btInsert, hlt, btLookup]
    · by_cases heq : k = k'
      · subst heq
        simp [btInsert, keyLt_irrefl, btLookup]
      · simp only [btInsert, hlt, heq]
        simp only [btLookup, List.find?] at ih ⊢
        simp [Ne.symm heq, heq, ih]

theorem btLookup_insert_ne {α : Type} {k j : String} (hne : j ≠ k) (v : α)
    (l : List (String × α)) : btLookup j (btInsert k v l) = btLookup j l := by
  induction l with
  | nil => simp [btInsert, btLookup, List.find?, Ne.symm hne, hne]
  | cons p rest ih =>
    obtain ⟨k', v'⟩ := p
    by_cases hlt : keyLt k k' = true
    · simp [btInsert, hlt, btLookup, List.find?, hne, Ne.symm hne]
    · by_cases heq : k = k'
      · subst heq
        simp [btInsert, hlt, btLookup, List.find?, hne, Ne.symm hne]
      · simp only [btInsert, hlt, heq, if_neg]
        simp only [btLookup, List.find?] at ih ⊢
        by_cases hjk : k' = j
        · simp [hjk]
        · simp [hjk, ih]

theorem btInsert_insert_same {α : Type} (k : String) (v : α) (l : List (String × α)) :
    btInsert k v (btInsert k v l) = btInsert k v l := by
  induction l with
  | nil => simp [btInsert, keyLt_irrefl]
  | cons p rest ih =>
    obtain ⟨k', v'⟩ := p
    by_cases hlt : keyLt k k' = true
    · simp [btInsert, hlt, keyLt_irrefl]
    · by_cases heq : k = k'
      · simp [btInsert, hlt, heq, keyLt_irrefl]
      · simp [btInsert, hlt, heq, ih]

/-- Every entry of `btInsert k v l` is `(k, v)` or an entry of `l`. -/
theorem mem_btInsert {α : Type} {x : String × α} {k : String} {v : α}
    {l : List (String × α)} (h : x ∈ btInsert k v l) : x = (k, v) ∨ x ∈ l := by
  induction l with
  | nil => simpa [btInsert] using h
  | cons p rest ih =>
    obtain ⟨k', v'⟩ := p
    by_cases hlt : keyLt k k' = true
    · simp [btInsert, hlt] at h
      rcases h with h | h | h
      · exact Or.inl (by simp [h])
      · exact Or.inr (by simp [h])
      · exact Or.inr (by simp [h])
    · by_cases heq : k = k'
      · subst heq
        simp [btInsert, keyLt_irrefl] at h
        rcases h with h | h
        · exact Or.inl (by simp [h])
        · exact Or.inr (by simp [h])
      · simp only [btInsert, hlt, heq, if_neg, if_false] at h
        simp at h
        rcases h with h | h
        · exact Or.inr (by simp [h])
        · rcases ih h with h | h
          · exact Or.inl h
          · exact Or.inr (by simp [h])

theorem walAppend_memtable (e : LSMEngine) (k v : String) :
    (walAppend e k v).memtable = e.memtable := by
  unfold walAppend; cases e.wal <;> rfl

theorem walAppend_segments (e : LSMEngine) (k v : String) :
    (walAppend e k v).segments = e.segments := by
  unfold walAppend; cases e.wal <;> rfl

theorem walAppend_clock (e : LSMEngine) (k v : String) :
    (walAppend e k v).clock = e.clock := by
  unfold walAppend; cases e.wal <;> rfl

theorem walAppend_segment_size (e : LSMEngine) (k v : String) :
    (walAppend e k v).segment_size = e.segment_size := by
  unfold walAppend; cases e.wal <;> rfl

theorem walAppend_sparse_offset (e : LSMEngine) (k v : String) :
    (walAppend e k v).sparse_offset = e.sparse_offset := by
  unfold walAppend; cases e.wal <;> rfl

theorem walAppend_sparse (e : LSMEngine) (k v : String) :
    (walAppend e k v).sparse_memory_index = e.sparse_memory_index := by
  unfold walAppend; cases e.wal <;> rfl

theorem walAppend_wal_some {e : LSMEngine} {w : List KVPair} (hw : e.wal = some w)
    (k v : String) : (walAppend e k v).wal = some (w ++ [⟨k, v⟩]) := by
  unfold walAppend; rw [hw]

theorem walAppend_set_wal_none (e : LSMEngine) (k v : String) :
    { walAppend e k v with wal := none } = { e with wal := none } := by
  unfold walAppend; cases e.wal <;> rfl

/-- What `flush_memtable` does, as an equation. -/
theorem flush_memtable_eq (e : LSMEngine) :
    e.flush_memtable =
      match segWriteAll (Segment.temp e.clock) e.memtable.entries with
      | .error er => .error er
      | .ok seg =>
        .ok (seg, { e with memtable := { e.memtable with entries := [] },
                           clock := e.clock + 1 }) := rfl

theorem flush_memtable_fields {e e1 : LSMEngine} {seg : Segment}
    (h : e.flush_memtable = .ok (seg, e1)) :
    e1 = { e with memtable := { e.memtable with entries := [] }, clock := e.clock + 1 } ∧
    segWriteAll (Segment.temp e.clock) e.memtable.entries = .ok seg := by
  rw [flush_memtable_eq] at h
  cases hsw : segWriteAll (Segment.temp e.clock) e.memtable.entries with
  | error er => rw [hsw] at h; cases h
  | ok s =>
    rw [hsw] at h
    injection h with h
    injection h with h1 h2
    exact ⟨h2.symm, by rw [h1]⟩

theorem merge_segments_fields {e e' : LSMEngine} (h : e.merge_segments = .ok e') :
    e'.memtable = e.memtable ∧ e'.wal = e.wal ∧
    e'.segment_size = e.segment_size ∧ e'.sparse_offset = e.sparse_offset ∧
    ∃ segs cbs clock',
      merge e.segments e.segment_size e.clock = .ok (segs, cbs, clock') ∧
      e'.segments = segs ∧ e'.clock = clock' ∧
      e'.sparse_memory_index = buildSparse e.sparse_offset cbs 0 [] := by
  unfold LSMEngine.merge_segments at h
  cases hm : merge e.segments e.segment_size e.clock with
  | error er => rw [hm] at h; cases h
  | ok t =>
    obtain ⟨segs, cbs, clock'⟩ := t
    rw [hm] at h
    injection h with h
    subst h
    exact ⟨rfl, rfl, rfl, rfl, segs, cbs, clock', rfl, rfl, rfl, rfl⟩

theorem writeCore_wal {e e' : LSMEngine} {k v : String}
    (h : writeCore e k v = .ok e') : e'.wal = e.wal := by
  unfold writeCore at h
  by_cases hc : (e.memtable.at_capacity && ! e.memtable.contains k) = true
  · rw [if_pos hc] at h
    cases hf : e.flush_memtable with
    | error er => rw [hf] at h; cases h
    | ok p =>
      obtain ⟨seg, e1⟩ := p
      rw [hf] at h
      have hm := merge_segments_fields h
      have h1 := (flush_memtable_fields hf).1
      rw [hm.2.1, h1]
  · rw [if_neg hc] at h
    injection h with h
    subst h
    rfl

theorem writeCore_memtable_capacity {e e' : LSMEngine} {k v : String}
    (h : writeCore e k v = .ok e') : e'.memtable.capacity = e.memtable.capacity := by
  unfold writeCore at h
  by_cases hc : (e.memtable.at_capacity && ! e.memtable.contains k) = true
  · rw [if_pos hc] at h
    cases hf : e.flush_memtable with
    | error er => rw [hf] at h; cases h
    | ok p =>
      obtain ⟨seg, e1⟩ := p
      rw [hf] at h
      have hm := merge_segments_fields h
      have h1 := (flush_memtable_fields hf).1
      rw [hm.1, h1]
      simp [Memtable.insert]
  · rw [if_neg hc] at h
    injection h with h
    subst h
    simp [Memtable.insert]

/-! ## Claim theorems (part 1) -/

/-- C7: `Segment::write` fails, with `UnsortedWrite { previous, current }`
carrying the previous and the current key, exactly when the written key is
strictly smaller than the previously written key (first writes and equal
keys are accepted); on success it returns the file offset captured before
the record was appended, and appends the record. -/
theorem c7_unsorted_write (s : Segment) (key value : String) :
    (∀ prev, s.previous_key = some prev →
      (keyLt key prev = true → s.write key value = .error (.UnsortedWrite prev key)) ∧
      (keyLt key prev = false →
        s.write key value =
          .ok (s.records.length,
            { records := s.records ++ [⟨key, value⟩], previous_key := some key,
              created_at := s.created_at }))) ∧
    (s.previous_key = none →
      s.write key value =
        .ok (s.records.length,
          { records := s.records ++ [⟨key, value⟩], previous_key := some key,
            created_at := s.created_at })) ∧
    (∀ er, s.write key value = .error er →
      ∃ prev, s.previous_key = some prev ∧ keyLt key prev = true ∧
        er = .UnsortedWrite prev key) := by
  refine ⟨?_, ?_, ?_⟩
  · intro prev hprev
    constructor
    · intro hlt
      simp only [Segment.write, hprev]
      rw [if_pos hlt]
    · intro hlt
      simp only [Segment.write, hprev]
      rw [if_neg (by rw [hlt]; exact Bool.false_ne_true)]
      rfl
  · intro hnone
    simp only [Segment.write, hnone]
    rfl
  · intro er her
    cases hprev : s.previous_key with
    | none =>
      simp only [Segment.write, hprev] at her
      cases her
    | some prev =>
      simp only [Segment.write, hprev] at her
      by_cases hlt : keyLt key prev = true
      · rw [if_pos hlt] at her
        injection her with her
        exact ⟨prev, rfl, hlt, her.symm⟩
      · rw [if_neg hlt] at her; cases her

/-- Witness for C7 at a concrete segment: a smaller key is refused with
the right payload, a larger key is accepted and returns the pre-write
offset. -/
theorem c7_unsorted_write_witness :
    Segment.write ⟨[⟨"b", "1"⟩], some "b", 0⟩ "a" "2" =
      .error (.UnsortedWrite "b" "a") ∧
    Segment.write ⟨[⟨"b", "1"⟩], some "b", 0⟩ "c" "3" =
      .ok (1, ⟨[⟨"b", "1"⟩, ⟨"c", "3"⟩], some "c", 0⟩) :=
  ⟨((c7_unsorted_write ⟨[⟨"b", "1"⟩], some "b", 0⟩ "a" "2").1 "b" rfl).1 (by decide),
   ((c7_unsorted_write ⟨[⟨"b", "1"⟩], some "b", 0⟩ "c" "3").1 "b" rfl).2 (by decide)⟩

/-- C1 (failure of the claim, evaluated): on a valid configuration
(`M = 1 ≤ T = 2`, `S = 2`), after `write(k2, b)` with no later write or
delete of `k2`, two further writes of other keys trigger flushes and
merges, and `read(k2)` returns `none` — not `some b` as the claim states.
The record is lost because `SstMerger::next` discards a duplicate popped
key without advancing that segment's iterator, dropping the rest of the
segment that held `k2`. -/
theorem c1_read_your_writes_lost_key :
    (execOps (LSMEngine.new 1 2 2 none)
        [.write "k1" "a", .write "k2" "b", .write "k1" "c", .write "k3" "d"]).map
      (fun e => e.read "k2") = .ok none ∧
    ∀ v : String,
      (execOps (LSMEngine.new 1 2 2 none)
          [.write "k1" "a", .write "k2" "b", .write "k1" "c", .write "k3" "d"]).map
        (fun e => e.read "k2") ≠ .ok (some v) := by
  refine ⟨rfl, ?_⟩
  intro v h
  rw [(rfl :
    (execOps (LSMEngine.new 1 2 2 none)
        [.write "k1" "a", .write "k2" "b", .write "k1" "c", .write "k3" "d"]).map
      (fun e => e.read "k2") = .ok none)] at h
  injection h with h
  cases h

/-- C2 (failure of the claim, evaluated): merging the sorted segment
`[(k1, a), (k2, b)]` (timestamp 0) with the newer sorted segment
`[(k1, c)]` (timestamp 1) at target size 2 outputs only `[(k1, c)]`:
key `k2`, present in the input union, is missing from the output, because
the discarded duplicate `k1` of the older segment is dropped without its
iterator being advanced. -/
theorem c2_merge_loses_input_key :
    (merge [⟨[⟨"k1", "a"⟩, ⟨"k2", "b"⟩], some "k2", 0⟩,
            ⟨[⟨"k1", "c"⟩], some "k1", 1⟩] 2 2).map
      (fun r => (r.1.map Segment.records, r.2.1)) =
      .ok ([[⟨"k1", "c"⟩]], [(0, 0, "k1")]) ∧
    "k2" ∈ ([⟨[⟨"k1", "a"⟩, ⟨"k2", "b"⟩], some "k2", (0 : Nat)⟩,
             ⟨[⟨"k1", "c"⟩], some "k1", 1⟩] : List Segment).flatMap
        (fun s => s.records.map KVPair.key) ∧
    "k2" ∉ ([[⟨"k1", "c"⟩]] : List (List KVPair)).flatMap (List.map KVPair.key) :=
  ⟨rfl, by decide, by decide⟩

/-- C5 (failure of the claim, evaluated): with `M = 1, T = 2, S = 1`,
after `write(k1, a); write(k2, b); write(k1, c)` the sparse index contains
the entry `(k1, (0, 0))` and `segments[0].search_from(k1, 0) = some a`,
but the value of `k1` observable through the engine is `some c` (the
memtable holds the newer value) — so the indexed segment value is *not*
the current value of `k1`. -/
theorem c5_sparse_index_counterexample :
    (execOps (LSMEngine.new 1 2 1 none)
        [.write "k1" "a", .write "k2" "b", .write "k1" "c"]).map
      (fun e => (e.sparse_memory_index.head?,
                 e.segments.head?.map (fun s => s.search_from "k1" 0),
                 e.read "k1")) =
      .ok (some ("k1", 0, 0), some (some "a"), some "c") ∧
    ("a" : String) ≠ "c" :=
  ⟨rfl, by decide⟩

/-- C9 (failure of the claim, evaluated): `recover_from` does not leave
the memtable empty on an arbitrary engine state.  On an engine whose
memtable holds `(k1, v1)`, recovering from an *empty* log leaves the
memtable — and hence `read(k1)` — unchanged, where the claim demands an
empty memtable (and so `read(k1) = none`). -/
theorem c9_recover_counterexample :
    ((execOps (LSMEngine.new 2 2 1 none) [.write "k1" "v1"]).bind
        (fun e => e.recover_from [])).map
      (fun e => (e.memtable.entries, e.read "k1")) =
      .ok ([("k1", "v1")], some "v1") ∧
    (some "v1" : Option String) ≠ none :=
  ⟨rfl, by decide⟩

/-- C9 (amended): `recover_from(log)` clears the segments list and the
sparse index but leaves the memtable exactly as it was (so it is empty
only if the engine was fresh); it replays each record of the log via
`write` starting from that cleared state, and after replay the given log
becomes the engine's active WAL. -/
theorem c9_recover_amended (e : LSMEngine) (log : List KVPair) (e' : LSMEngine)
    (h : e.recover_from log = .ok e') :
    e'.wal = some log ∧
    e.clear.segments = [] ∧ e.clear.sparse_memory_index = [] ∧
    e.clear.memtable = e.memtable ∧
    (∃ t, replayWal e.clear log = .ok t ∧ e' = { t with wal := some log }) ∧
    (log = [] → e' = { e with segments := [], sparse_memory_index := [],
                              wal := some [] }) := by
  unfold LSMEngine.recover_from at h
  cases hr : replayWal e.clear log with
  | error er => rw [hr] at h; cases h
  | ok t =>
    rw [hr] at h
    injection h with h
    subst h
    refine ⟨rfl, rfl, rfl, rfl, ⟨t, rfl, rfl⟩, ?_⟩
    intro hlog
    subst hlog
    unfold replayWal at hr
    injection hr with hr
    subst hr
    rfl

/-- Witness for C9 (amended) at the engine state of the counterexample. -/
theorem c9_recover_amended_witness :
    (LSMEngine.recover_from
        ⟨⟨[("k1", "v1")], 2⟩, [], 2, [], 1, none, 0⟩ [] =
      .ok ⟨⟨[("k1", "v1")], 2⟩, [], 2, [], 1, some [], 0⟩) ∧
    (⟨⟨[("k1", "v1")], 2⟩, [], 2, [], 1, some [], 0⟩ : LSMEngine).wal = some [] ∧
    (⟨⟨[("k1", "v1")], 2⟩, [], 2, [], 1, none, 0⟩ : LSMEngine).clear.memtable =
      (⟨⟨[("k1", "v1")], 2⟩, [], 2, [], 1, none, 0⟩ : LSMEngine).memtable :=
  ⟨rfl,
   (c9_recover_amended ⟨⟨[("k1", "v1")], 2⟩, [], 2, [], 1, none, 0⟩ [] _ rfl).1,
   (c9_recover_amended ⟨⟨[("k1", "v1")], 2⟩, [], 2, [], 1, none, 0⟩ [] _ rfl).2.2.2.1⟩

/-- C10: on an engine with a WAL, `delete(k)` appends the tombstone record
for `k` to the WAL twice — once directly in `delete` and once more inside
the `write` it delegates to — so the WAL gains two consecutive identical
tombstone entries. -/
theorem c10_delete_double_log (e : LSMEngine) (k : String) (w : List KVPair)
    (hw : e.wal = some w) (e' : LSMEngine) (h : e.delete k = .ok e') :
    e'.wal = some (w ++ [⟨k, TOMBSTONE_VALUE⟩, ⟨k, TOMBSTONE_VALUE⟩]) := by
  unfold LSMEngine.delete LSMEngine.write at h
  have hwal := writeCore_wal h
  rw [hwal, walAppend_wal_some (walAppend_wal_some hw k TOMBSTONE_VALUE) k TOMBSTONE_VALUE]
  simp

/-- Witness for C10: a concrete delete on a WAL-backed engine appends the
tombstone record twice. -/
theorem c10_delete_double_log_witness :
    (LSMEngine.new 1 2 2 (some [⟨"a", "b"⟩])).wal = some [⟨"a", "b"⟩] ∧
    (LSMEngine.new 1 2 2 (some [⟨"a", "b"⟩])).delete "zz" = .ok
      ⟨⟨[("zz", TOMBSTONE_VALUE)], 1⟩, [], 2, [], 2,
        some [⟨"a", "b"⟩, ⟨"zz", TOMBSTONE_VALUE⟩, ⟨"zz", TOMBSTONE_VALUE⟩], 0⟩ ∧
    (⟨⟨[("zz", TOMBSTONE_VALUE)], 1⟩, [], 2, [], 2,
        some [⟨"a", "b"⟩, ⟨"zz", TOMBSTONE_VALUE⟩, ⟨"zz", TOMBSTONE_VALUE⟩], 0⟩ :
          LSMEngine).wal =
      some ([⟨"a", "b"⟩] ++ [⟨"zz", TOMBSTONE_VALUE⟩, ⟨"zz", TOMBSTONE_VALUE⟩]) :=
  ⟨rfl, rfl,
   c10_delete_double_log (LSMEngine.new 1 2 2 (some [⟨"a", "b"⟩])) "zz"
     [⟨"a", "b"⟩] rfl _ rfl⟩

/-- C8: `LSMEngine::write` takes the flush path exactly when the memtable
is at capacity (its entry count equals `M`) and does not already contain
the written key.  When the condition is false — in particular for a write
that updates an existing key at full capacity — the write only inserts
into the memtable and leaves segments and sparse index untouched.  When
it is true, the drained memtable is written to a fresh temporary segment,
the segment is pushed, the new pair is inserted into the now-empty
memtable (becoming its only entry), and a merge pass runs over the full
segment list, rebuilding the sparse index. -/
theorem c8_flush_trigger (e : LSMEngine) (key value : String) :
    ((e.memtable.at_capacity && ! e.memtable.contains key) = false →
      e.write key value =
        .ok { walAppend e key value with memtable := e.memtable.insert key value }) ∧
    ((e.memtable.at_capacity && ! e.memtable.contains key) = true →
      ∀ e', e.write key value = .ok e' →
        e'.memtable.entries = [(key, value)] ∧
        ∃ seg segs cbs clock',
          segWriteAll (Segment.temp e.clock) e.memtable.entries = .ok seg ∧
          merge (e.segments ++ [seg]) e.segment_size (e.clock + 1) =
            .ok (segs, cbs, clock') ∧
          e'.segments = segs ∧
          e'.sparse_memory_index = buildSparse e.sparse_offset cbs 0 []) ∧
    (e.memtable.at_capacity = true → e.memtable.contains key = true →
      ∀ e', e.write key value = .ok e' →
        e'.segments = e.segments ∧
        e'.sparse_memory_index = e.sparse_memory_index ∧
        e'.memtable = e.memtable.insert key value) := by
  have hmem := walAppend_memtable e key value
  refine ⟨?_, ?_, ?_⟩
  · intro hc
    unfold LSMEngine.write writeCore
    rw [hmem, hc]
    simp
  · intro hc e' h
    unfold LSMEngine.write writeCore at h
    rw [hmem, hc] at h
    simp only [if_true] at h
    cases hf : (walAppend e key value).flush_memtable with
    | error er => rw [hf] at h; cases h
    | ok p =>
      obtain ⟨seg, e1⟩ := p
      rw [hf] at h
      obtain ⟨he1, hsw⟩ := flush_memtable_fields hf
      rw [walAppend_clock, hmem] at hsw
      have hm := merge_segments_fields h
      obtain ⟨segs, cbs, clock', hmerge, hsegs, hclock, hsparse⟩ := hm.2.2.2.2
      constructor
      · rw [hm.1, he1]
        simp only [Memtable.insert]
        rfl
      · refine ⟨seg, segs, cbs, clock', hsw, ?_, hsegs, ?_⟩
        · rw [← hmerge]
          congr 1
          · rw [he1]; simp [walAppend_segments]
          · rw [he1]; simp [walAppend_segment_size]
          · rw [he1]; simp [walAppend_clock]
        · rw [hsparse, he1]
          simp [walAppend_sparse_offset]
  · intro hcap hcont e' h
    have hc : (e.memtable.at_capacity && ! e.memtable.contains key) = false := by
      rw [hcap, hcont]; rfl
    unfold LSMEngine.write writeCore at h
    rw [hmem, hc] at h
    simp only [Bool.false_eq_true, if_false] at h
    injection h with h
    subst h
    exact ⟨walAppend_segments e key value, walAppend_sparse e key value, rfl⟩

/-- Witness for C8 at `M = 1`: a write of a fresh key at capacity flushes
(the memtable afterwards holds only the new pair), while an update of the
present key at full capacity does not flush (segments stay empty). -/
theorem c8_flush_trigger_witness :
    ((⟨⟨[("k1", "v1")], 1⟩, [], 2, [], 2, none, 0⟩ : LSMEngine).memtable.at_capacity &&
      ! (⟨⟨[("k1", "v1")], 1⟩, [], 2, [], 2, none, 0⟩ :
          LSMEngine).memtable.contains "k2") = true ∧
    (⟨⟨[("k1", "v1")], 1⟩, [], 2, [], 2, none, 0⟩ : LSMEngine).write "k2" "v2" =
      .ok ⟨⟨[("k2", "v2")], 1⟩, [⟨[⟨"k1", "v1"⟩], some "k1", 1⟩], 2,
           [("k1", (0, 0))], 2, none, 2⟩ ∧
    (⟨⟨[("k2", "v2")], 1⟩, [⟨[⟨"k1", "v1"⟩], some "k1", 1⟩], 2,
      [("k1", (0, 0))], 2, none, 2⟩ : LSMEngine).memtable.entries = [("k2", "v2")] ∧
    (⟨⟨[("k1", "v1")], 1⟩, [], 2, [], 2, none, 0⟩ : LSMEngine).memtable.at_capacity = true ∧
    (⟨⟨[("k1", "v1")], 1⟩, [], 2, [], 2, none, 0⟩ :
        LSMEngine).memtable.contains "k1" = true ∧
    (⟨⟨[("k1", "v1")], 1⟩, [], 2, [], 2, none, 0⟩ : LSMEngine).write "k1" "v2" =
      .ok ⟨⟨[("k1", "v2")], 1⟩, [], 2, [], 2, none, 0⟩ ∧
    ([] : List Segment) = (⟨⟨[("k1", "v1")], 1⟩, [], 2, [], 2, none, 0⟩ :
        LSMEngine).segments :=
  ⟨rfl, rfl,
   ((c8_flush_trigger ⟨⟨[("k1", "v1")], 1⟩, [], 2, [], 2, none, 0⟩ "k2" "v2").2.1
      rfl _ rfl).1,
   rfl, rfl, rfl,
   (((c8_flush_trigger ⟨⟨[("k1", "v1")], 1⟩, [], 2, [], 2, none, 0⟩ "k1" "v2").2.2
      rfl rfl _ rfl).1).symm⟩

/-! ## Raw segment files and decode failures (for the error-handling claims)

The engine itself only ever appends well-formed lines, so the main model
works on decoded records.  To talk about decode errors we model the raw
file of a segment as a list of lines, each either the encoding of a
record or malformed. -/

/-- One line of a segment file as read back from disk.  Modelled from the
spec (§4.1): the codec decodes a well-formed line to its record and fails
with a decode error on a malformed line; which byte strings are malformed
is irrelevant, only the partition matters. -/
inductive SegLine where
  | good (kv : KVPair)
  | bad (raw : String)
deriving Repr, DecidableEq

/-- `serde_json::from_str::<KVPair>` on one line (the codec interface of
§4.1; the JSON text itself is not modelled). -/
def decodeLine : SegLine → Except SstError KVPair
  | .good kv => .ok kv
  | .bad raw => .error (.JsonParsing raw)

/-- The result of running code that may `panic!`: either the process
aborted with a panic message, or a value. -/
inductive AbortOr (α : Type) where
  | aborted (msg : String)
  | got (a : α)
deriving Repr, DecidableEq

/-- The panic message of the `expect` in `Segment::read`. -/
def SEG_DECODE_PANIC : String :=
  "something went wrong deserializing the contents of the segment file"

/-- The lazy scan that `Segment::search_from` performs over the record
iterator of `Segment::read` (sst.rs 282-293 over 311-319): decode lines
one at a time — each decode wrapped in `expect`, so a malformed line
ABORTS the process — until the first record with key `≥ key`; if its key
equals `key` yield its value. -/
def searchScanLines (key : String) : List SegLine → AbortOr (Option String)
  | [] => .got none
  | line :: rest =>
    match decodeLine line with
    | .error _ => .aborted SEG_DECODE_PANIC
    | .ok kv =>
      if keyLe key kv.key then .got (if kv.key = key then some kv.value else none)
      else searchScanLines key rest

/-- `Segment::search_from` at the raw-file level: seek to `offset`, run
the lazy scan, and wrap the outcome in the `Result` the function returns.
In the pure model `tell`/`seek` cannot fail, so the only `Result`-level
value ever produced is `Ok`; decode failures abort instead of surfacing
as `Err`. -/
def search_from_file (key : String) (offset : Nat) (lines : List SegLine) :
    AbortOr (Except SstError (Option String)) :=
  match searchScanLines key (lines.drop offset) with
  | .aborted m => .aborted m
  | .got r => .got (.ok r)

/-- C6 (failure of the claim, evaluated): searching `k2` in a segment file
whose second line is malformed ABORTS the process (the `expect` calls in
`Segment::read`) instead of terminating the search with a decode error as
the claim states: no `Err` outcome is possible at all. -/
theorem c6_decode_error_counterexample :
    search_from_file "k2" 0 [.good ⟨"k1", "v1"⟩, .bad "oops"] =
      .aborted SEG_DECODE_PANIC ∧
    ∀ er : SstError,
      search_from_file "k2" 0 [.good ⟨"k1", "v1"⟩, .bad "oops"] ≠ .got (.error er) := by
  refine ⟨rfl, ?_⟩
  intro er h
  rw [(rfl : search_from_file "k2" 0 [.good ⟨"k1", "v1"⟩, .bad "oops"] =
        .aborted SEG_DECODE_PANIC)] at h
  cases h

/-- C6 (amended): during `Segment::read` and `search_from`, a decode
error (malformed record line) encountered mid-search does **not**
propagate to the caller as an error — it aborts the process via the
`expect` panics in `Segment::read`.  Concretely: if every line scanned
before the malformed one decodes to a key `< key`, the search aborts with
the panic message; and on a fully well-formed file the raw-file search
agrees with the record-level `Segment::search_from` (never an `Err`). -/
theorem c6_decode_abort_amended (key : String) :
    (∀ (pre : List SegLine) (raw : String) (post : List SegLine),
      (∀ l ∈ pre, ∃ kv, l = .good kv ∧ keyLt kv.key key = true) →
      search_from_file key 0 (pre ++ .bad raw :: post) = .aborted SEG_DECODE_PANIC) ∧
    (∀ (records : List KVPair) (offset : Nat),
      search_from_file key offset (records.map .good) =
        .got (.ok (Segment.search_from ⟨records, none, 0⟩ key offset))) := by
  constructor
  · intro pre raw post hpre
    unfold search_from_file
    rw [List.drop_zero]
    induction pre with
    | nil => rfl
    | cons l rest ih =>
      obtain ⟨kv, hl, hlt⟩ := hpre l (by simp)
      subst hl
      have hle : keyLe key kv.key = false := by
        simp [keyLe, hlt]
      simp only [List.cons_append, searchScanLines, decodeLine, hle, Bool.false_eq_true,
        if_false]
      exact ih (fun l hl => hpre l (by simp [hl]))
  · intro records offset
    unfold search_from_file Segment.search_from
    have hdrop : (records.map SegLine.good).drop offset =
        (records.drop offset).map SegLine.good := (List.map_drop ..).symm
    rw [hdrop]
    induction records.drop offset with
    | nil => rfl
    | cons kv rest ih =>
      simp only [List.map_cons, searchScanLines, decodeLine, List.find?]
      cases hle : keyLe key kv.key with
      | true => simp [hle]
      | false =>
        simp only [hle, Bool.false_eq_true, if_false]
        simpa using ih

/-- Witness for C6 (amended) at a concrete file: the search aborts on a
bad second line, and on the corresponding well-formed file it returns
`Ok(some v2)`. -/
theorem c6_decode_abort_amended_witness :
    (∀ l ∈ [SegLine.good ⟨"k1", "v1"⟩], ∃ kv, l = .good kv ∧ keyLt kv.key "k2" = true) ∧
    search_from_file "k2" 0 [.good ⟨"k1", "v1"⟩, .bad "oops", .good ⟨"k2", "v2"⟩] =
      .aborted SEG_DECODE_PANIC ∧
    search_from_file "k2" 0 ([⟨"k1", "v1"⟩, ⟨"k2", "v2"⟩].map .good) =
      .got (.ok (Segment.search_from ⟨[⟨"k1", "v1"⟩, ⟨"k2", "v2"⟩], none, 0⟩ "k2" 0)) :=
  ⟨by intro l hl; simp at hl; exact ⟨⟨"k1", "v1"⟩, hl, by decide⟩,
   (c6_decode_abort_amended "k2").1 [.good ⟨"k1", "v1"⟩] "oops" [.good ⟨"k2", "v2"⟩]
     (by intro l hl; simp at hl; exact ⟨⟨"k1", "v1"⟩, hl, by decide⟩),
   (c6_decode_abort_amended "k2").2 [⟨"k1", "v1"⟩, ⟨"k2", "v2"⟩] 0⟩

/-! ## The engine core is independent of the WAL (towards the replay claim) -/

theorem merge_segments_set_wal (e : LSMEngine) (w : Option (List KVPair)) :
    LSMEngine.merge_segments { e with wal := w } =
      e.merge_segments.map (fun x => { x with wal := w }) := by
  unfold LSMEngine.merge_segments
  cases hm : merge e.segments e.segment_size e.clock with
  | error er => simp [hm, Except.map]
  | ok t =>
    obtain ⟨segs, cbs, clock'⟩ := t
    simp [hm, Except.map]

theorem flush_memtable_set_wal (e : LSMEngine) (w : Option (List KVPair)) :
    LSMEngine.flush_memtable { e with wal := w } =
      e.flush_memtable.map (fun p => (p.1, { p.2 with wal := w })) := by
  rw [flush_memtable_eq, flush_memtable_eq]
  cases hsw : segWriteAll (Segment.temp e.clock) e.memtable.entries with
  | error er => simp [Except.map]
  | ok seg => simp [Except.map]

theorem writeCore_set_wal (e : LSMEngine) (k v : String) (w : Option (List KVPair)) :
    writeCore { e with wal := w } k v =
      (writeCore e k v).map (fun x => { x with wal := w }) := by
  unfold writeCore
  by_cases hc : (e.memtable.at_capacity && ! e.memtable.contains k) = true
  · rw [if_pos hc, if_pos hc, flush_memtable_set_wal]
    cases hf : e.flush_memtable with
    | error er => rfl
    | ok p =>
      obtain ⟨seg, e1⟩ := p
      exact merge_segments_set_wal
        { e1 with segments := e1.segments ++ [seg],
                  memtable := e1.memtable.insert k v } w
  · rw [if_neg hc, if_neg hc]
    rfl

/-- After a successful `writeCore k v`, the memtable is `btInsert k v`
of some list with the original capacity. -/
theorem writeCore_memtable_shape {e e' : LSMEngine} {k v : String}
    (h : writeCore e k v = .ok e') :
    ∃ entries, e'.memtable = ⟨btInsert k v entries, e.memtable.capacity⟩ := by
  unfold writeCore at h
  by_cases hc : (e.memtable.at_capacity && ! e.memtable.contains k) = true
  · rw [if_pos hc] at h
    cases hf : e.flush_memtable with
    | error er => rw [hf] at h; cases h
    | ok p =>
      obtain ⟨seg, e1⟩ := p
      rw [hf] at h
      have hm := (merge_segments_fields h).1
      have he1 := (flush_memtable_fields hf).1
      refine ⟨[], ?_⟩
      rw [hm, he1]
      rfl
  · rw [if_neg hc] at h
    injection h with h
    subst h
    exact ⟨e.memtable.entries, rfl⟩

/-- Writing the same pair again immediately afterwards is a no-op on the
engine state: after the first write the memtable contains the key, so the
second write takes the insert-only branch, and the insert replaces the
value by itself. -/
theorem writeCore_dup {e e' : LSMEngine} {k v : String}
    (h : writeCore e k v = .ok e') : writeCore e' k v = .ok e' := by
  obtain ⟨entries, hm⟩ := writeCore_memtable_shape h
  have hget : e'.memtable.get k = some v := by
    rw [hm]
    simp only [Memtable.get]
    exact btLookup_insert_self k v entries
  have hcond : (e'.memtable.at_capacity && ! e'.memtable.contains k) = false := by
    simp [Memtable.contains, hget]
  unfold writeCore
  rw [hcond]
  simp only [Bool.false_eq_true, if_false]
  have : e'.memtable.insert k v = e'.memtable := by
    rw [hm]
    simp only [Memtable.insert]
    rw [btInsert_insert_same]
  rw [this]

/-- `read` does not look at the WAL. -/
theorem read_set_wal (e : LSMEngine) (w : Option (List KVPair)) (key : String) :
    LSMEngine.read { e with wal := w } key = e.read key := rfl

/-- The records that executing `ops` appends to a WAL: each `write`
appends its pair once; each `delete` appends the tombstone pair twice
(once in `delete`, once in the `write` it delegates to). -/
def walRecs : List Op → List KVPair
  | [] => []
  | .write k v :: ops => ⟨k, v⟩ :: walRecs ops
  | .delete k :: ops =>
    ⟨k, TOMBSTONE_VALUE⟩ :: ⟨k, TOMBSTONE_VALUE⟩ :: walRecs ops

/-- Executing `ops` on an engine with a WAL appends exactly `walRecs ops`. -/
theorem execOps_wal {ops : List Op} {e e1 : LSMEngine}
    (h : execOps e ops = .ok e1) {w : List KVPair} (hw : e.wal = some w) :
    e1.wal = some (w ++ walRecs ops) := by
  induction ops generalizing e w with
  | nil =>
    unfold execOps at h
    injection h with h
    subst h
    rw [hw]; simp [walRecs]
  | cons op ops ih =>
    unfold execOps at h
    cases hstep : execOp e op with
    | error er => rw [hstep] at h; cases h
    | ok e' =>
      rw [hstep] at h
      cases op with
      | write k v =>
        have hww : e'.wal = some (w ++ [⟨k, v⟩]) := by
          unfold execOp LSMEngine.write at hstep
          rw [writeCore_wal hstep, walAppend_wal_some hw]
        have := ih h hww
        rw [this, walRecs]
        simp
      | delete k =>
        have hww : e'.wal = some (w ++ [⟨k, TOMBSTONE_VALUE⟩, ⟨k, TOMBSTONE_VALUE⟩]) := by
          unfold execOp at hstep
          have := c10_delete_double_log e k w hw e' hstep
          simpa using this
        have := ih h hww
        rw [this, walRecs]
        simp

/-- Core replay correspondence: executing `ops` (with whatever WAL) and
replaying `walRecs ops` via `write` on the same engine without a WAL
produce the same engine apart from the WAL field.  The doubled tombstone
of each `delete` is harmless because an immediate duplicate write is a
no-op (`writeCore_dup`). -/
theorem execOps_core {ops : List Op} {e e1 : LSMEngine}
    (h : execOps e ops = .ok e1) :
    replayWal { e with wal := none } (walRecs ops) = .ok { e1 with wal := none } := by
  induction ops generalizing e with
  | nil =>
    unfold execOps at h
    injection h with h
    subst h
    rfl
  | cons op ops ih =>
    unfold execOps at h
    cases hstep : execOp e op with
    | error er => rw [hstep] at h; cases h
    | ok e' =>
      rw [hstep] at h
      cases op with
      | write k v =>
        simp only [execOp, LSMEngine.write] at hstep
        have h2 : writeCore { walAppend e k v with wal := none } k v =
            .ok { e' with wal := none } := by
          rw [writeCore_set_wal, hstep]; rfl
        rw [walAppend_set_wal_none] at h2
        have hs : ({ e with wal := none } : LSMEngine).write k v =
            .ok { e' with wal := none } := by
          unfold LSMEngine.write
          exact h2
        simp only [walRecs, replayWal, hs]
        exact ih h
      | delete k =>
        simp only [execOp, LSMEngine.delete, LSMEngine.write] at hstep
        have h2 : writeCore
            { walAppend (walAppend e k TOMBSTONE_VALUE) k TOMBSTONE_VALUE with
              wal := none } k TOMBSTONE_VALUE = .ok { e' with wal := none } := by
          rw [writeCore_set_wal, hstep]; rfl
        rw [walAppend_set_wal_none, walAppend_set_wal_none] at h2
        have hs1 : ({ e with wal := none } : LSMEngine).write k TOMBSTONE_VALUE =
            .ok { e' with wal := none } := by
          unfold LSMEngine.write
          exact h2
        have hs2 : ({ e' with wal := none } : LSMEngine).write k TOMBSTONE_VALUE =
            .ok { e' with wal := none } := by
          unfold LSMEngine.write
          exact writeCore_dup h2
        simp only [walRecs, replayWal, hs1, hs2]
        exact ih h

/-- C3: WAL replay identity.  For any operation sequence executed on an
engine `E1` built with a (fresh, empty) WAL, a fresh engine `E2` of the
same configuration that runs `recover_from` on `E1`'s WAL file satisfies
`E2.read(k) = E1.read(k)` for every key `k`. -/
theorem c3_wal_replay_identity (M T S : Nat) (ops : List Op) (e1 : LSMEngine)
    (h1 : execOps (LSMEngine.new M T S (some [])) ops = .ok e1)
    (w : List KVPair) (hw : e1.wal = some w) (e2 : LSMEngine)
    (h2 : (LSMEngine.new M T S none).recover_from w = .ok e2) (key : String) :
    e2.read key = e1.read key := by
  have hwal := execOps_wal h1 rfl
  rw [hwal] at hw
  injection hw with hw
  simp only [List.nil_append] at hw
  have hcore : replayWal (LSMEngine.new M T S none) (walRecs ops) =
      .ok { e1 with wal := none } := execOps_core h1
  unfold LSMEngine.recover_from at h2
  rw [← hw] at h2
  have hclear : (LSMEngine.new M T S none).clear = LSMEngine.new M T S none := rfl
  simp only [hclear, hcore] at h2
  injection h2 with h2
  subst h2
  exact read_set_wal e1 (some (walRecs ops)) key

/-- Witness for C3: `write(k1, v1); delete(k1)` on a WAL-backed engine
(`M = 1, T = 2, S = 2`), then recovery of a fresh engine from the WAL:
both engines read `none` for `k1`. -/
theorem c3_wal_replay_identity_witness :
    execOps (LSMEngine.new 1 2 2 (some [])) [.write "k1" "v1", .delete "k1"] =
      .ok ⟨⟨[("k1", TOMBSTONE_VALUE)], 1⟩, [], 2, [], 2,
        some [⟨"k1", "v1"⟩, ⟨"k1", TOMBSTONE_VALUE⟩, ⟨"k1", TOMBSTONE_VALUE⟩], 0⟩ ∧
    (⟨⟨[("k1", TOMBSTONE_VALUE)], 1⟩, [], 2, [], 2,
        some [⟨"k1", "v1"⟩, ⟨"k1", TOMBSTONE_VALUE⟩, ⟨"k1", TOMBSTONE_VALUE⟩], 0⟩ :
      LSMEngine).wal =
      some [⟨"k1", "v1"⟩, ⟨"k1", TOMBSTONE_VALUE⟩, ⟨"k1", TOMBSTONE_VALUE⟩] ∧
    (LSMEngine.new 1 2 2 none).recover_from
        [⟨"k1", "v1"⟩, ⟨"k1", TOMBSTONE_VALUE⟩, ⟨"k1", TOMBSTONE_VALUE⟩] =
      .ok ⟨⟨[("k1", TOMBSTONE_VALUE)], 1⟩, [], 2, [], 2,
        some [⟨"k1", "v1"⟩, ⟨"k1", TOMBSTONE_VALUE⟩, ⟨"k1", TOMBSTONE_VALUE⟩], 0⟩ ∧
    (⟨⟨[("k1", TOMBSTONE_VALUE)], 1⟩, [], 2, [], 2,
        some [⟨"k1", "v1"⟩, ⟨"k1", TOMBSTONE_VALUE⟩, ⟨"k1", TOMBSTONE_VALUE⟩], 0⟩ :
      LSMEngine).read "k1" =
    (⟨⟨[("k1", TOMBSTONE_VALUE)], 1⟩, [], 2, [], 2,
        some [⟨"k1", "v1"⟩, ⟨"k1", TOMBSTONE_VALUE⟩, ⟨"k1", TOMBSTONE_VALUE⟩], 0⟩ :
      LSMEngine).read "k1" :=
  ⟨rfl, rfl, rfl,
   c3_wal_replay_identity 1 2 2 [.write "k1" "v1", .delete "k1"] _ rfl _ rfl _ rfl "k1"⟩

/-! ## The merge write loop and the sparse index (for the index claim) -/

/-- Successful `Segment::write` returns the pre-write offset and appends
the record. -/
theorem Segment.write_ok {s s' : Segment} {k v : String} {off : Nat}
    (h : s.write k v = .ok (off, s')) :
    off = s.records.length ∧ s'.records = s.records ++ [⟨k, v⟩] ∧
    s'.previous_key = some k ∧ s'.created_at = s.created_at := by
  cases hp : s.previous_key with
  | none =>
    simp only [Segment.write, hp] at h
    simp only [Except.ok.injEq, Prod.mk.injEq] at h
    obtain ⟨h1, h2⟩ := h
    subst h2
    exact ⟨h1.symm, rfl, rfl, rfl⟩
  | some prev =>
    simp only [Segment.write, hp] at h
    by_cases hlt : keyLt k prev = true
    · rw [if_pos hlt] at h; cases h
    · rw [if_neg hlt] at h
      simp only [Except.ok.injEq, Prod.mk.injEq] at h
      obtain ⟨h1, h2⟩ := h
      subst h2
      exact ⟨h1.symm, rfl, rfl, rfl⟩

/-- "Callback triple `c = (i, off, key)` points at a record with key
`key`": looking up segment `i` and record `off` in `segs` yields a record
whose key is `key`. -/
def cbPoints (segs : List Segment) (c : Nat × Nat × String) : Prop :=
  ∃ v : String, (segs[c.1]?.bind (fun s => s.records[c.2.1]?)) = some ⟨c.2.2, v⟩

theorem cbPoints_lt {segs : List Segment} {c : Nat × Nat × String}
    (h : cbPoints segs c) : c.1 < segs.length := by
  obtain ⟨v, hv⟩ := h
  by_contra hge
  rw [List.getElem?_eq_none (by omega)] at hv
  cases hv

/-- Appending a record to the trailing segment preserves all triples that
pointed into the old list. -/
theorem cbPoints_extend {acc : List Segment} {cur cur' : Segment} {r : KVPair}
    {c : Nat × Nat × String} (hrec : cur'.records = cur.records ++ [r])
    (h : cbPoints (acc ++ [cur]) c) : cbPoints (acc ++ [cur']) c := by
  obtain ⟨v, hv⟩ := h
  refine ⟨v, ?_⟩
  by_cases hci : c.1 < acc.length
  · rw [List.getElem?_append_left hci] at hv ⊢
    exact hv
  · have hle : c.1 = acc.length := by
      have := cbPoints_lt ⟨v, hv⟩
      simp at this
      omega
    rw [hle] at hv ⊢
    rw [List.getElem?_concat_length] at hv ⊢
    simp only [Option.some_bind] at hv ⊢
    have hlt : c.2.1 < cur.records.length := by
      by_contra hge
      rw [List.getElem?_eq_none (by omega)] at hv
      cases hv
    rw [hrec, List.getElem?_append_left hlt]
    exact hv

/-- Sealing the trailing segment (appending a fresh one after it)
preserves all triples. -/
theorem cbPoints_seal {l : List Segment} {fresh : Segment}
    {c : Nat × Nat × String} (h : cbPoints l c) : cbPoints (l ++ [fresh]) c := by
  obtain ⟨v, hv⟩ := h
  exact ⟨v, by rw [List.getElem?_append_left (cbPoints_lt ⟨v, hv⟩)]; exact hv⟩

/-- If the trailing segment is empty, every pointing triple already
points into the front. -/
theorem cbPoints_drop_empty {acc : List Segment} {cur : Segment}
    {c : Nat × Nat × String} (hcur : cur.records = [])
    (h : cbPoints (acc ++ [cur]) c) : cbPoints acc c := by
  obtain ⟨v, hv⟩ := h
  refine ⟨v, ?_⟩
  by_cases hci : c.1 < acc.length
  · rw [List.getElem?_append_left hci] at hv
    exact hv
  · exfalso
    have hle : c.1 = acc.length := by
      have := cbPoints_lt ⟨v, hv⟩
      simp at this
      omega
    rw [hle, List.getElem?_concat_length] at hv
    simp only [Option.some_bind, hcur] at hv
    cases hv

/-- The triple recorded for a freshly written record points at it. -/
theorem cbPoints_new {acc : List Segment} {cur cur' : Segment} {r : KVPair}
    (hrec : cur'.records = cur.records ++ [r]) :
    cbPoints (acc ++ [cur']) (acc.length, cur.records.length, r.key) := by
  refine ⟨r.value, ?_⟩
  simp only
  rw [List.getElem?_concat_length]
  simp only [Option.some_bind]
  rw [hrec, List.getElem?_concat_length]

/-- Invariant of the merge write loop: if every already-recorded callback
triple points at a record with its key (within the sealed segments
followed by the current output segment), then every triple recorded by
the end of a successful loop points at such a record in the returned
segment list. -/
theorem mergeWriteLoop_records {T : Nat} :
    ∀ (stream : List KVPair) (cur : Segment) (acc : List Segment)
      (cbs : List (Nat × Nat × String)) (now clock' : Nat)
      (segs : List Segment) (cbs' : List (Nat × Nat × String)),
      mergeWriteLoop T stream cur acc.length acc cbs now = .ok (segs, cbs', clock') →
      (∀ c ∈ cbs, cbPoints (acc ++ [cur]) c) →
      ∀ c ∈ cbs', cbPoints segs c := by
  intro stream
  induction stream with
  | nil =>
    intro cur acc cbs now clock' segs cbs' h hinv c hc
    simp only [mergeWriteLoop] at h
    by_cases hsz : cur.size > 0
    · rw [if_pos hsz] at h
      simp only [Except.ok.injEq, Prod.mk.injEq] at h
      obtain ⟨h1, h2, h3⟩ := h
      subst h1; subst h2
      exact hinv c hc
    · rw [if_neg hsz] at h
      simp only [Except.ok.injEq, Prod.mk.injEq] at h
      obtain ⟨h1, h2, h3⟩ := h
      subst h1; subst h2
      have hcur : cur.records = [] :=
        List.length_eq_zero.mp (by simp only [Segment.size] at hsz; omega)
      exact cbPoints_drop_empty hcur (hinv c hc)
  | cons kv rest ih =>
    intro cur acc cbs now clock' segs cbs' h hinv c hc
    simp only [mergeWriteLoop] at h
    by_cases hsz : cur.size = T
    · rw [if_pos hsz] at h
      cases hw : (Segment.temp now).write kv.key kv.value with
      | error er => rw [hw] at h; cases h
      | ok p =>
        obtain ⟨off, seg'⟩ := p
        rw [hw] at h
        obtain ⟨hoff, hrec, _, _⟩ := Segment.write_ok hw
        have hlen : acc.length + 1 = (acc ++ [cur]).length := by simp
        rw [hlen] at h
        refine ih seg' (acc ++ [cur]) _ _ clock' segs cbs' h ?_ c hc
        intro c hc
        simp only [List.mem_append, List.mem_singleton] at hc
        rcases hc with hc | hc
        · exact cbPoints_seal (hinv c hc)
        · subst hc
          rw [hoff]
          exact cbPoints_new hrec
    · rw [if_neg hsz] at h
      cases hw : cur.write kv.key kv.value with
      | error er => rw [hw] at h; cases h
      | ok p =>
        obtain ⟨off, cur'⟩ := p
        rw [hw] at h
        obtain ⟨hoff, hrec, _, _⟩ := Segment.write_ok hw
        refine ih cur' acc _ _ clock' segs cbs' h ?_ c hc
        intro c hc
        simp only [List.mem_append, List.mem_singleton] at hc
        rcases hc with hc | hc
        · exact cbPoints_extend hrec (hinv c hc)
        · subst hc
          rw [hoff]
          exact cbPoints_new hrec

/-- Every entry of the rebuilt sparse index comes from one of the
recorded callback triples (`(segment_index, key_offset, key)` becomes
`key ↦ (key_offset, segment_index)`). -/
theorem buildSparse_mem {S : Nat} :
    ∀ (cbs : List (Nat × Nat × String)) (n : Nat)
      (idx : List (String × (Nat × Nat))) (x : String × (Nat × Nat)),
      x ∈ buildSparse S cbs n idx →
      x ∈ idx ∨ (x.2.2, x.2.1, x.1) ∈ cbs := by
  intro cbs
  induction cbs with
  | nil =>
    intro n idx x hx
    simp only [buildSparse] at hx
    exact Or.inl hx
  | cons cb cbs ih =>
    intro n idx x hx
    obtain ⟨segment_index, key_offset, key⟩ := cb
    simp only [buildSparse] at hx
    rcases ih _ _ _ hx with hin | hin
    · by_cases hmod : n % S = 0
      · rw [if_pos hmod] at hin
        rcases mem_btInsert hin with heq | hmem2
        · subst heq
          exact Or.inr (by simp)
        · exact Or.inl hmem2
      · rw [if_neg hmod] at hin
        exact Or.inl hin
    · exact Or.inr (by simp [hin])

/-- C5 (amended): after a merge pass, every sparse-index entry
`(key, (off, ix))` points at the record at offset `off` of
`segments[ix]`, whose key is `key`, and `segments[ix].search_from(key,
off)` returns exactly that record's value — the value the merge emitted
for `key`.  (The engine-observable value of `key` may differ: the
memtable may hold a newer entry, and the stored value may be the
tombstone; see the counterexample.) -/
theorem c5_sparse_index_amended (e e' : LSMEngine) (h : e.merge_segments = .ok e')
    (key : String) (off ix : Nat)
    (hmem : (key, (off, ix)) ∈ e'.sparse_memory_index) :
    ((e'.segments[ix]?.bind (fun s => s.records[off]?)).map KVPair.key = some key) ∧
    (e'.segments[ix]?.map (fun s => s.search_from key off) =
      (e'.segments[ix]?.bind (fun s => s.records[off]?)).map (fun kv => some kv.value)) := by
  obtain ⟨_, _, _, _, segs, cbs, clock', hmerge, hsegs, _, hsparse⟩ :=
    merge_segments_fields h
  unfold merge at hmerge
  have hrec : ∀ c ∈ cbs, cbPoints segs c := by
    refine mergeWriteLoop_records _ (Segment.temp e.clock) [] [] _ clock' segs cbs
      hmerge ?_
    intro c hc
    cases hc
  rw [hsparse] at hmem
  rcases buildSparse_mem cbs 0 [] _ hmem with hin | hin
  · cases hin
  · obtain ⟨v, hv⟩ := hrec _ hin
    rw [hsegs]
    constructor
    · rw [hv]
      rfl
    · cases hgs : segs[ix]? with
      | none => rw [hgs] at hv; cases hv
      | some s =>
        rw [hgs] at hv
        simp only [Option.some_bind] at hv
        simp only [hgs, Option.some_bind, Option.map_some']
        rw [Segment.search_from_here hv, hv]
        rfl

/-- Witness for C5 (amended): a merge pass over the single segment
`[(k1, a)]` indexes `k1 ↦ (0, 0)`, and the indexed position holds the
record `(k1, a)`, which `search_from` returns. -/
theorem c5_sparse_index_amended_witness :
    LSMEngine.merge_segments
        ⟨⟨[], 0⟩, [⟨[⟨"k1", "a"⟩], some "k1", 0⟩], 2, [], 1, none, 1⟩ =
      .ok ⟨⟨[], 0⟩, [⟨[⟨"k1", "a"⟩], some "k1", 1⟩], 2, [("k1", (0, 0))], 1, none, 2⟩ ∧
    ("k1", ((0 : Nat), (0 : Nat))) ∈
      (⟨⟨[], 0⟩, [⟨[⟨"k1", "a"⟩], some "k1", 1⟩], 2, [("k1", (0, 0))], 1, none, 2⟩ :
        LSMEngine).sparse_memory_index ∧
    (((⟨⟨[], 0⟩, [⟨[⟨"k1", "a"⟩], some "k1", 1⟩], 2, [("k1", (0, 0))], 1, none, 2⟩ :
        LSMEngine).segments[0]?.bind (fun s => s.records[0]?)).map KVPair.key =
      some "k1") ∧
    ((⟨⟨[], 0⟩, [⟨[⟨"k1", "a"⟩], some "k1", 1⟩], 2, [("k1", (0, 0))], 1, none, 2⟩ :
        LSMEngine).segments[0]?.map (fun s => s.search_from "k1" 0) =
      ((⟨⟨[], 0⟩, [⟨[⟨"k1", "a"⟩], some "k1", 1⟩], 2, [("k1", (0, 0))], 1, none, 2⟩ :
        LSMEngine).segments[0]?.bind (fun s => s.records[0]?)).map
          (fun kv => some kv.value)) :=
  ⟨rfl, by decide,
   (c5_sparse_index_amended
      ⟨⟨[], 0⟩, [⟨[⟨"k1", "a"⟩], some "k1", 0⟩], 2, [], 1, none, 1⟩
      ⟨⟨[], 0⟩, [⟨[⟨"k1", "a"⟩], some "k1", 1⟩], 2, [("k1", (0, 0))], 1, none, 2⟩
      rfl "k1" 0 0 (by decide)).1,
   (c5_sparse_index_amended
      ⟨⟨[], 0⟩, [⟨[⟨"k1", "a"⟩], some "k1", 0⟩], 2, [], 1, none, 1⟩
      ⟨⟨[], 0⟩, [⟨[⟨"k1", "a"⟩], some "k1", 1⟩], 2, [("k1", (0, 0))], 1, none, 2⟩
      rfl "k1" 0 0 (by decide)).2⟩

/-! ## Heap-order facts and containment for the merge stream -/

/-- The record carried by a heap entry. -/
def entryKV (m : MetaKey) : KVPair := ⟨m.key, m.value⟩

/-- Strict record order by key. -/
def recLt (a b : KVPair) : Prop := keyLt a.key b.key = true

theorem metaLe_total (a b : MetaKey) : metaLe a b = true ∨ metaLe b a = true := by
  unfold metaLe
  rcases keyLt_total a.key b.key with h | h | h
  · simp [h]
  · simp [h]
  · simp [h]
    omega

theorem metaLe_key_le {a b : MetaKey} (h : metaLe a b = true) :
    keyLe a.key b.key = true := by
  unfold metaLe at h
  simp only [Bool.or_eq_true, Bool.and_eq_true, decide_eq_true_eq] at h
  rcases h with h | ⟨h, _⟩
  · exact keyLe_of_lt h
  · exact keyLe_of_lt_or_eq (Or.inr h)

theorem metaLe_trans {a b c : MetaKey} (h1 : metaLe a b = true)
    (h2 : metaLe b c = true) : metaLe a c = true := by
  unfold metaLe at h1 h2 ⊢
  simp only [Bool.or_eq_true, Bool.and_eq_true, decide_eq_true_eq] at h1 h2 ⊢
  rcases h1 with h1 | ⟨h1k, h1t⟩
  · rcases h2 with h2 | ⟨h2k, _⟩
    · exact Or.inl (keyLt_trans h1 h2)
    · exact Or.inl (h2k ▸ h1)
  · rcases h2 with h2 | ⟨h2k, h2t⟩
    · exact Or.inl (h1k ▸ h2)
    · exact Or.inr ⟨h1k.trans h2k, le_trans h2t h1t⟩

theorem popMin_none {l : List MetaKey} : popMin l = none ↔ l = [] := by
  cases l with
  | nil => simp [popMin]
  | cons m rest =>
    simp only [popMin]
    constructor
    · intro h
      cases hp : popMin rest with
      | none => simp only [hp] at h; exact Option.noConfusion h
      | some p =>
        obtain ⟨m', rest'⟩ := p
        simp only [hp] at h
        by_cases hle : metaLe m m' = true
        · rw [if_pos hle] at h; exact Option.noConfusion h
        · rw [if_neg hle] at h; exact Option.noConfusion h
    · intro h; cases h

theorem popMin_perm {l : List MetaKey} {m : MetaKey} {rest : List MetaKey}
    (h : popMin l = some (m, rest)) : l.Perm (m :: rest) := by
  induction l generalizing m rest with
  | nil => cases h
  | cons a as ih =>
    simp only [popMin] at h
    cases hp : popMin as with
    | none =>
      simp only [hp] at h
      have : as = [] := popMin_none.mp hp
      subst this
      injection h with h
      injection h with h1 h2
      subst h1; subst h2
      rfl
    | some p =>
      obtain ⟨m', rest'⟩ := p
      simp only [hp] at h
      by_cases hle : metaLe a m' = true
      · rw [if_pos hle] at h
        injection h with h
        injection h with h1 h2
        subst h1; subst h2
        rfl
      · rw [if_neg hle] at h
        injection h with h
        injection h with h1 h2
        subst h1; subst h2
        exact ((ih hp).cons a).trans (List.Perm.swap m' a rest')

theorem popMin_min {l : List MetaKey} {m : MetaKey} {rest : List MetaKey}
    (h : popMin l = some (m, rest)) : ∀ x ∈ rest, metaLe m x = true := by
  induction l generalizing m rest with
  | nil => cases h
  | cons a as ih =>
    simp only [popMin] at h
    cases hp : popMin as with
    | none =>
      simp only [hp] at h
      have : as = [] := popMin_none.mp hp
      subst this
      injection h with h
      injection h with h1 h2
      subst h1; subst h2
      intro x hx; cases hx
    | some p =>
      obtain ⟨m', rest'⟩ := p
      simp only [hp] at h
      by_cases hle : metaLe a m' = true
      · rw [if_pos hle] at h
        injection h with h
        injection h with h1 h2
        subst h1; subst h2
        intro x hx
        rcases List.mem_cons.mp ((popMin_perm hp).mem_iff.mp hx) with hx2 | hx2
        · rw [hx2]; exact hle
        · exact metaLe_trans hle (ih hp x hx2)
      · rw [if_neg hle] at h
        injection h with h
        injection h with h1 h2
        subst h1; subst h2
        have hm'a : metaLe m' a = true := by
          rcases metaLe_total a m' with ht | ht
          · exact absurd ht hle
          · exact ht
        intro x hx
        rcases List.mem_cons.mp hx with hx2 | hx2
        · rw [hx2]; exact hm'a
        · exact ih hp x hx2

/-- Everything the merge stream emits was present in the heap or in one
of the (advanced) segment iterators. -/
theorem mergeStream_subset : ∀ (fuel : Nat) (s : MergeState) (kv : KVPair),
    kv ∈ mergeStream fuel s →
    kv ∈ s.heap.map entryKV ++ s.segment_iterators.flatten := by
  intro fuel
  induction fuel with
  | zero =>
    intro s kv h
    simp only [mergeStream] at h
    cases h
  | succ fuel ih =>
    intro s kv h
    simp only [mergeStream] at h
    cases hpop : popMin s.heap with
    | none => simp only [hpop] at h; cases h
    | some p =>
      obtain ⟨m, rest⟩ := p
      simp only [hpop] at h
      have hperm := popMin_perm hpop
      have hmem_rest : ∀ x ∈ rest, x ∈ s.heap := by
        intro x hx
        exact hperm.mem_iff.mpr (by simp [hx])
      have hmem_m : m ∈ s.heap := hperm.mem_iff.mpr (by simp)
      by_cases hprev : s.previous_key = some m.key
      · rw [if_pos hprev] at h
        have := ih _ _ h
        simp only [List.mem_append, List.mem_map] at this ⊢
        rcases this with ⟨x, hx, he⟩ | hj
        · exact Or.inl ⟨x, hmem_rest x hx, he⟩
        · exact Or.inr hj
      · rw [if_neg hprev] at h
        cases hits : s.segment_iterators[m.which_segment]? with
        | none =>
          simp only [hits] at h
          simp only [List.mem_cons] at h
          rcases h with h | h
          · subst h
            simp only [List.mem_append, List.mem_map]
            exact Or.inl ⟨m, hmem_m, rfl⟩
          · have := ih _ _ h
            simp only [List.mem_append, List.mem_map] at this ⊢
            rcases this with ⟨x, hx, he⟩ | hj
            · exact Or.inl ⟨x, hmem_rest x hx, he⟩
            · exact Or.inr hj
        | some itl =>
          simp only [hits] at h
          cases itl with
          | nil =>
            simp only [List.mem_cons] at h
            rcases h with h | h
            · subst h
              simp only [List.mem_append, List.mem_map]
              exact Or.inl ⟨m, hmem_m, rfl⟩
            · have := ih _ _ h
              simp only [List.mem_append, List.mem_map] at this ⊢
              rcases this with ⟨x, hx, he⟩ | hj
              · exact Or.inl ⟨x, hmem_rest x hx, he⟩
              · exact Or.inr hj
          | cons nxt tl =>
            simp only [List.mem_cons] at h
            rcases h with h | h
            · subst h
              simp only [List.mem_append, List.mem_map]
              exact Or.inl ⟨m, hmem_m, rfl⟩
            · have := ih _ _ h
              simp only [List.mem_append, List.mem_map, List.mem_cons] at this ⊢
              rcases this with ⟨x, hx, he⟩ | hj
              · rcases hx with hx | hx
                · subst hx
                  refine Or.inr ?_
                  rw [List.mem_flatten]
                  refine ⟨nxt :: tl, ?_, by rw [← he]; simp [entryKV]⟩
                  exact List.getElem?_mem hits
                · exact Or.inl ⟨x, hmem_rest x hx, he⟩
              · refine Or.inr ?_
                rw [List.mem_flatten] at hj ⊢
                obtain ⟨sub, hsub, hkv⟩ := hj
                rcases List.mem_or_eq_of_mem_set hsub with hsub | hsub
                · exact ⟨sub, hsub, hkv⟩
                · subst hsub
                  exact ⟨nxt :: sub, List.getElem?_mem hits, by simp [hkv]⟩

/-! ## Invariants of the merge loop -/

/-- Invariants maintained by `SstMerger` (on states whose inputs were
sorted segments with strictly increasing timestamps): every heap entry
indexes a real iterator; at most one heap entry per source segment; heap
timestamps are ordered like their segment indices; each heap entry
prepended to its iterator is strictly sorted; and the last emitted key is
`≤` every heap key. -/
structure INVm (s : MergeState) : Prop where
  inv_len : ∀ m ∈ s.heap, m.which_segment < s.segment_iterators.length
  inv_uniq : s.heap.Pairwise (fun a b => a.which_segment ≠ b.which_segment)
  inv_ts : ∀ a ∈ s.heap, ∀ b ∈ s.heap, a.which_segment < b.which_segment →
    a.timestamp < b.timestamp
  inv_sorted : ∀ m ∈ s.heap, ∀ itl,
    s.segment_iterators[m.which_segment]? = some itl →
    List.Chain' recLt (entryKV m :: itl)
  inv_prev : ∀ pk, s.previous_key = some pk →
    ∀ m ∈ s.heap, keyLe pk m.key = true

theorem pairwise_which_eq {l : List MetaKey}
    (h : l.Pairwise (fun a b => a.which_segment ≠ b.which_segment))
    {a b : MetaKey} (ha : a ∈ l) (hb : b ∈ l)
    (hw : a.which_segment = b.which_segment) : a = b := by
  induction l with
  | nil => cases ha
  | cons x xs ih =>
    rcases List.pairwise_cons.mp h with ⟨hx, hxs⟩
    rcases List.mem_cons.mp ha with ha' | ha'
    · rcases List.mem_cons.mp hb with hb' | hb'
      · rw [ha', hb']
      · subst ha'; exact absurd hw (hx b hb')
    · rcases List.mem_cons.mp hb with hb' | hb'
      · subst hb'; exact absurd hw.symm (hx a ha')
      · exact ih hxs ha' hb'

theorem INVm_discard {s : MergeState} {m : MetaKey} {rest : List MetaKey}
    (hpop : popMin s.heap = some (m, rest)) (hinv : INVm s) :
    INVm { s with heap := rest } := by
  have hperm := popMin_perm hpop
  have hmem : ∀ x ∈ rest, x ∈ s.heap := fun x hx =>
    hperm.mem_iff.mpr (List.mem_cons_of_mem m hx)
  refine ⟨?_, ?_, ?_, ?_, ?_⟩
  · intro x hx; exact hinv.inv_len x (hmem x hx)
  · have := (List.Perm.pairwise_iff (fun h => Ne.symm h) hperm).mp hinv.inv_uniq
    exact (List.pairwise_cons.mp this).2
  · intro a ha b hb; exact hinv.inv_ts a (hmem a ha) b (hmem b hb)
  · intro x hx; exact hinv.inv_sorted x (hmem x hx)
  · intro pk hpk x hx; exact hinv.inv_prev pk hpk x (hmem x hx)

theorem INVm_emit_nopush {s : MergeState} {m : MetaKey} {rest : List MetaKey}
    (hpop : popMin s.heap = some (m, rest)) (hinv : INVm s) :
    INVm { s with heap := rest, previous_key := some m.key } := by
  have hd := INVm_discard hpop hinv
  refine ⟨hd.inv_len, hd.inv_uniq, hd.inv_ts, hd.inv_sorted, ?_⟩
  intro pk hpk x hx
  injection hpk with hpk
  subst hpk
  exact metaLe_key_le (popMin_min hpop x hx)

theorem INVm_emit_push {s : MergeState} {m : MetaKey} {rest : List MetaKey}
    {nxt : KVPair} {tl : List KVPair}
    (hpop : popMin s.heap = some (m, rest))
    (hits : s.segment_iterators[m.which_segment]? = some (nxt :: tl))
    (hinv : INVm s) :
    INVm { heap := ⟨nxt.key, nxt.value, m.timestamp, m.which_segment⟩ :: rest,
           segment_iterators := s.segment_iterators.set m.which_segment tl,
           previous_key := some m.key } := by
  have hperm := popMin_perm hpop
  have hmem : ∀ x ∈ rest, x ∈ s.heap := fun x hx =>
    hperm.mem_iff.mpr (List.mem_cons_of_mem m hx)
  have hmm : m ∈ s.heap := hperm.mem_iff.mpr (List.mem_cons_self m rest)
  have hpw : (m :: rest).Pairwise (fun a b => a.which_segment ≠ b.which_segment) :=
    (List.Perm.pairwise_iff (fun h => Ne.symm h) hperm).mp hinv.inv_uniq
  have hrest_ne : ∀ x ∈ rest, x.which_segment ≠ m.which_segment := by
    intro x hx
    exact fun he => (List.pairwise_cons.mp hpw).1 x hx he.symm
  have hchain := hinv.inv_sorted m hmm (nxt :: tl) hits
  have hlenm := hinv.inv_len m hmm
  refine ⟨?_, ?_, ?_, ?_, ?_⟩
  · intro x hx
    rcases List.mem_cons.mp hx with hx' | hx'
    · subst hx'
      simpa [List.length_set] using hlenm
    · simpa [List.length_set] using hinv.inv_len x (hmem x hx')
  · refine List.Pairwise.cons ?_ (List.pairwise_cons.mp hpw).2
    intro x hx he
    exact hrest_ne x hx he.symm
  · intro a ha b hb hlt
    rcases List.mem_cons.mp ha with ha' | ha' <;>
      rcases List.mem_cons.mp hb with hb' | hb'
    · subst ha'; subst hb'; exact absurd hlt (lt_irrefl _)
    · subst ha'
      exact hinv.inv_ts m hmm b (hmem b hb') hlt
    · subst hb'
      exact hinv.inv_ts a (hmem a ha') m hmm hlt
    · exact hinv.inv_ts a (hmem a ha') b (hmem b hb') hlt
  · intro x hx itl hitl
    rcases List.mem_cons.mp hx with hx' | hx'
    · subst hx'
      rw [List.getElem?_set_self', hits] at hitl
      have h2 : tl = itl := Option.some.inj hitl
      subst h2
      exact (List.chain'_cons.mp hchain).2
    · rw [List.getElem?_set_ne (by exact fun he => hrest_ne x hx' he.symm)] at hitl
      exact hinv.inv_sorted x (hmem x hx') itl hitl
  · intro pk hpk x hx
    injection hpk with hpk
    subst hpk
    rcases List.mem_cons.mp hx with hx' | hx'
    · subst hx'
      have := (List.chain'_cons.mp hchain).1
      exact keyLe_of_lt this
    · exact metaLe_key_le (popMin_min hpop x hx')

/-- One successful (non-discarding) step of the merge stream: the popped
minimum is emitted and the state advances, pushing the popped entry's
successor when its iterator is non-empty. -/
theorem mergeStream_step {fuel : Nat} {s : MergeState} {m : MetaKey}
    {rest : List MetaKey} (hpop : popMin s.heap = some (m, rest))
    (hprev : ¬ s.previous_key = some m.key) :
    (∃ nxt tl, s.segment_iterators[m.which_segment]? = some (nxt :: tl) ∧
      mergeStream (fuel + 1) s = entryKV m ::
        mergeStream fuel
          { heap := ⟨nxt.key, nxt.value, m.timestamp, m.which_segment⟩ :: rest,
            segment_iterators := s.segment_iterators.set m.which_segment tl,
            previous_key := some m.key }) ∨
    ((s.segment_iterators[m.which_segment]? = none ∨
        s.segment_iterators[m.which_segment]? = some []) ∧
      mergeStream (fuel + 1) s = entryKV m ::
        mergeStream fuel { s with heap := rest, previous_key := some m.key }) := by
  cases hits : s.segment_iterators[m.which_segment]? with
  | none =>
    refine Or.inr ⟨Or.inl rfl, ?_⟩
    simp only [mergeStream, hpop, if_neg hprev, hits]
    rfl
  | some itl =>
    cases itl with
    | nil =>
      refine Or.inr ⟨Or.inr rfl, ?_⟩
      simp only [mergeStream, hpop, if_neg hprev, hits]
      rfl
    | cons nxt tl =>
      refine Or.inl ⟨nxt, tl, rfl, ?_⟩
      simp only [mergeStream, hpop, if_neg hprev, hits]
      rfl

/-- The discarding step of the merge stream. -/
theorem mergeStream_skip {fuel : Nat} {s : MergeState} {m : MetaKey}
    {rest : List MetaKey} (hpop : popMin s.heap = some (m, rest))
    (hprev : s.previous_key = some m.key) :
    mergeStream (fuel + 1) s = mergeStream fuel { s with heap := rest } := by
  simp only [mergeStream, hpop, if_pos hprev]

/-- The emitted stream is strictly increasing by key, and every emitted
key is strictly above the last previously-emitted key. -/
theorem mergeStream_sorted : ∀ (fuel : Nat) (s : MergeState), INVm s →
    (∀ pk, s.previous_key = some pk →
      ∀ kv ∈ mergeStream fuel s, keyLt pk kv.key = true) ∧
    List.Chain' recLt (mergeStream fuel s) := by
  intro fuel
  induction fuel with
  | zero =>
    intro s _
    exact ⟨fun pk _ kv h => absurd h (by simp [mergeStream]),
           by simp only [mergeStream]; exact List.chain'_nil⟩
  | succ fuel ih =>
    intro s hinv
    cases hpop : popMin s.heap with
    | none =>
      constructor
      · intro pk _ kv h
        simp only [mergeStream, hpop] at h
        cases h
      · simp only [mergeStream, hpop]
        exact List.chain'_nil
    | some p =>
      obtain ⟨m, rest⟩ := p
      have hperm := popMin_perm hpop
      have hmm : m ∈ s.heap := hperm.mem_iff.mpr (List.mem_cons_self _ _)
      by_cases hprev : s.previous_key = some m.key
      · rw [mergeStream_skip hpop hprev]
        have hinv' := INVm_discard hpop hinv
        have IH := ih _ hinv'
        exact ⟨fun pk hpk kv h => IH.1 pk hpk kv h, IH.2⟩
      · have hstep := @mergeStream_step fuel _ _ _ hpop hprev
        have hcont : ∃ s', mergeStream (fuel + 1) s =
            entryKV m :: mergeStream fuel s' ∧ INVm s' ∧
            s'.previous_key = some m.key := by
          rcases hstep with ⟨nxt, tl, hits, heq⟩ | ⟨_, heq⟩
          · exact ⟨_, heq, INVm_emit_push hpop hits hinv, rfl⟩
          · exact ⟨_, heq, INVm_emit_nopush hpop hinv, rfl⟩
        obtain ⟨s', heq, hinv', hprev'⟩ := hcont
        have IH := ih _ hinv'
        have hafter : ∀ kv ∈ mergeStream fuel s', keyLt m.key kv.key = true :=
          fun kv h => IH.1 m.key hprev' kv h
        rw [heq]
        constructor
        · intro pk hpk kv h
          rcases List.mem_cons.mp h with h' | h'
          · subst h'
            have hle := hinv.inv_prev pk hpk m hmm
            have hne : pk ≠ m.key := fun he => hprev (he ▸ hpk)
            rcases keyLt_total pk m.key with hx | hx | hx
            · exact hx
            · exfalso
              simp only [keyLe, Bool.not_eq_true'] at hle
              rw [hle] at hx
              exact Bool.noConfusion hx
            · exact absurd hx hne
          · have h1 : keyLt pk m.key = true := by
              have hle := hinv.inv_prev pk hpk m hmm
              have hne : pk ≠ m.key := fun he => hprev (he ▸ hpk)
              rcases keyLt_total pk m.key with hx | hx | hx
              · exact hx
              · exfalso
                simp only [keyLe, Bool.not_eq_true'] at hle
                rw [hle] at hx
                exact Bool.noConfusion hx
              · exact absurd hx hne
            exact keyLt_trans h1 (hafter kv h')
        · rw [List.chain'_cons']
          constructor
          · intro b hb
            have hbm : b ∈ mergeStream fuel s' := List.mem_of_mem_head? hb
            exact hafter b hbm
          · exact IH.2

instance : IsTrans KVPair recLt := ⟨fun _ _ _ => keyLt_trans⟩

theorem chain_head_le_mem {a : KVPair} {l : List KVPair} {kv : KVPair}
    (hch : List.Chain' recLt (a :: l)) (hm : kv ∈ a :: l) :
    keyLe a.key kv.key = true := by
  rcases List.mem_cons.mp hm with h | h
  · rw [h]; exact keyLe_refl _
  · have hpw := List.chain'_iff_pairwise.mp hch
    have := (List.pairwise_cons.mp hpw).1 kv h
    exact keyLe_of_lt this

theorem chain_mem_head_eq {a : KVPair} {l : List KVPair} {kv : KVPair}
    (hch : List.Chain' recLt (a :: l)) (hm : kv ∈ a :: l)
    (hk : kv.key = a.key) : kv = a := by
  rcases List.mem_cons.mp hm with h | h
  · exact h
  · exfalso
    have hpw := List.chain'_iff_pairwise.mp hch
    have hlt := (List.pairwise_cons.mp hpw).1 kv h
    unfold recLt at hlt
    rw [hk, keyLt_irrefl] at hlt
    exact Bool.noConfusion hlt

/-- The state predicate for the newest-wins argument: either the newest
segment (the one at the last index, which no heap entry can outrank on
ties) still has the record `(k, w)` among its unconsumed records, with
its heap entry alive and strictly above the last emitted key; or a key
`≥ k` has already been emitted, after which no further record with key
`k` can be emitted at all. -/
def NWphase (k w : String) (s : MergeState) : Prop :=
  (∃ fm ∈ s.heap, fm.which_segment + 1 = s.segment_iterators.length ∧
    (∃ itl, s.segment_iterators[fm.which_segment]? = some itl ∧
      (⟨k, w⟩ : KVPair) ∈ entryKV fm :: itl) ∧
    (s.previous_key = none ∨
      ∃ pk, s.previous_key = some pk ∧ keyLt pk fm.key = true)) ∨
  (∃ pk, s.previous_key = some pk ∧ keyLe k pk = true)

/-- Newest wins: if the last (newest) input segment still holds `(k, w)`
— or a key `≥ k` was already emitted — then every record with key `k`
that the merge stream ever emits carries the value `w`. -/
theorem mergeStream_nw (k w : String) : ∀ (fuel : Nat) (s : MergeState),
    INVm s → NWphase k w s →
    ∀ kv ∈ mergeStream fuel s, kv.key = k → kv.value = w := by
  intro fuel
  induction fuel with
  | zero =>
    intro s _ _ kv h
    simp only [mergeStream] at h
    cases h
  | succ fuel ih =>
    intro s hinv hph kv hkv hk
    cases hpop : popMin s.heap with
    | none =>
      simp only [mergeStream, hpop] at hkv
      cases hkv
    | some p =>
      obtain ⟨m, rest⟩ := p
      have hperm := popMin_perm hpop
      have hmm : m ∈ s.heap := hperm.mem_iff.mpr (List.mem_cons_self _ _)
      have hmem_rest : ∀ x ∈ rest, x ∈ s.heap := fun x hx =>
        hperm.mem_iff.mpr (List.mem_cons_of_mem m hx)
      by_cases hprev : s.previous_key = some m.key
      · -- the popped entry is a duplicate of the last emitted key: discarded
        rw [mergeStream_skip hpop hprev] at hkv
        refine ih _ (INVm_discard hpop hinv) ?_ kv hkv hk
        rcases hph with ⟨fm, hfm, hfw, hitl, hprevc⟩ | ⟨pk, hpk, hkpk⟩
        · left
          have hpkm : ∃ pk, s.previous_key = some pk ∧ keyLt pk fm.key = true := by
            rcases hprevc with hnone | hsome
            · rw [hprev] at hnone; cases hnone
            · exact hsome
          obtain ⟨pk, hpk, hlt⟩ := hpkm
          have hpkm2 : pk = m.key := by
            rw [hprev] at hpk
            exact (Option.some.inj hpk).symm
          have hne : fm ≠ m := by
            intro he
            rw [he, ← hpkm2, keyLt_irrefl] at hlt
            exact Bool.noConfusion hlt
          have hfm' : fm ∈ rest := by
            rcases List.mem_cons.mp (hperm.mem_iff.mp hfm) with h | h
            · exact absurd h hne
            · exact h
          exact ⟨fm, hfm', hfw, hitl, Or.inr ⟨pk, hpk, hlt⟩⟩
        · exact Or.inr ⟨pk, hpk, hkpk⟩
      · -- the popped entry is emitted
        rcases hph with ⟨fm, hfm, hfw, ⟨itl, hitl, hmem⟩, hprevc⟩ | ⟨pk, hpk, hkpk⟩
        · -- phase 1: the newest segment still holds (k, w)
          by_cases hwhich : m.which_segment = fm.which_segment
          · have hmfm : m = fm := pairwise_which_eq hinv.inv_uniq hmm hfm hwhich
            subst hmfm
            have hchain := hinv.inv_sorted m hmm itl hitl
            by_cases hkey : m.key = k
            · -- the emitted record is exactly (k, w)
              have hkvw : (⟨k, w⟩ : KVPair) = entryKV m :=
                chain_mem_head_eq hchain hmem (by simp [entryKV, hkey])
              have hwv : w = m.value := congrArg KVPair.value hkvw
              have hph2 : ∀ s' : MergeState, s'.previous_key = some m.key →
                  NWphase k w s' := by
                intro s' hp
                exact Or.inr ⟨m.key, hp, keyLe_of_lt_or_eq (Or.inr hkey.symm)⟩
              rcases @mergeStream_step fuel _ _ _ hpop hprev with
                ⟨nxt, tl, hits2, heq⟩ | ⟨hbad, heq⟩
              · rw [heq] at hkv
                rcases List.mem_cons.mp hkv with hkv' | hkv'
                · rw [hkv']; exact hwv.symm
                · exact ih _ (INVm_emit_push hpop hits2 hinv) (hph2 _ rfl) kv hkv' hk
              · rw [heq] at hkv
                rcases List.mem_cons.mp hkv with hkv' | hkv'
                · rw [hkv']; exact hwv.symm
                · exact ih _ (INVm_emit_nopush hpop hinv) (hph2 _ rfl) kv hkv' hk
            · -- (k, w) sits deeper in the newest segment's iterator
              have hmem_itl : (⟨k, w⟩ : KVPair) ∈ itl := by
                rcases List.mem_cons.mp hmem with h | h
                · exact absurd (congrArg KVPair.key h) (by simp [entryKV]; exact hkey ∘ Eq.symm)
                · exact h
              rcases @mergeStream_step fuel _ _ _ hpop hprev with
                ⟨nxt, tl, hits2, heq⟩ | ⟨hbad, heq⟩
              · have hitl2 : itl = nxt :: tl := by
                  rw [hitl] at hits2
                  exact Option.some.inj hits2
                subst hitl2
                rw [heq] at hkv
                rcases List.mem_cons.mp hkv with hkv' | hkv'
                · exfalso
                  apply hkey
                  rw [← hk, hkv']
                  rfl
                · refine ih _ (INVm_emit_push hpop hits2 hinv) ?_ kv hkv' hk
                  left
                  refine ⟨⟨nxt.key, nxt.value, m.timestamp, m.which_segment⟩,
                    List.mem_cons_self _ _, ?_, ⟨tl, ?_, ?_⟩, ?_⟩
                  · simpa [List.length_set] using hfw
                  · simp only
                    rw [List.getElem?_set_self', hitl]
                    rfl
                  · exact hmem_itl
                  · refine Or.inr ⟨m.key, rfl, ?_⟩
                    have := (List.chain'_cons.mp hchain).1
                    exact this
              · exfalso
                rcases hbad with hb | hb
                · rw [hitl] at hb; cases hb
                · rw [hitl] at hb
                  have : itl = [] := Option.some.inj hb
                  rw [this] at hmem_itl
                  cases hmem_itl
          · -- the popped entry comes from an older segment
            have hfmne : fm ≠ m := fun he => hwhich (congrArg MetaKey.which_segment he).symm
            have hfm_rest : fm ∈ rest := by
              rcases List.mem_cons.mp (hperm.mem_iff.mp hfm) with h | h
              · exact absurd h hfmne
              · exact h
            have hmle : metaLe m fm = true := popMin_min hpop fm hfm_rest
            have hmlt : keyLt m.key fm.key = true := by
              unfold metaLe at hmle
              simp only [Bool.or_eq_true, Bool.and_eq_true, decide_eq_true_eq] at hmle
              rcases hmle with h | ⟨hkeq, hts⟩
              · exact h
              · exfalso
                have h1 : m.which_segment < fm.which_segment := by
                  have h2 := hinv.inv_len m hmm
                  omega
                have := hinv.inv_ts m hmm fm hfm h1
                omega
            have hchf := hinv.inv_sorted fm hfm itl hitl
            have hfk : keyLe fm.key k = true := by
              have := chain_head_le_mem hchf hmem
              simpa [entryKV] using this
            have hmk : keyLt m.key k = true := keyLt_trans_le hmlt hfk
            have hmkne : ∀ kv' : KVPair, kv' = entryKV m → kv'.key = k → False := by
              intro kv' he hke
              rw [he] at hke
              simp only [entryKV] at hke
              rw [hke, keyLt_irrefl] at hmk
              exact Bool.noConfusion hmk
            rcases @mergeStream_step fuel _ _ _ hpop hprev with
              ⟨nxt, tl, hits2, heq⟩ | ⟨hbad, heq⟩
            · rw [heq] at hkv
              rcases List.mem_cons.mp hkv with hkv' | hkv'
              · exact absurd hk (fun hke => hmkne kv hkv' hke)
              · refine ih _ (INVm_emit_push hpop hits2 hinv) ?_ kv hkv' hk
                left
                refine ⟨fm, List.mem_cons_of_mem _ hfm_rest, ?_, ⟨itl, ?_, hmem⟩,
                  Or.inr ⟨m.key, rfl, hmlt⟩⟩
                · simpa [List.length_set] using hfw
                · simp only
                  rw [List.getElem?_set_ne (fun he => hwhich he)]
                  exact hitl
            · rw [heq] at hkv
              rcases List.mem_cons.mp hkv with hkv' | hkv'
              · exact absurd hk (fun hke => hmkne kv hkv' hke)
              · refine ih _ (INVm_emit_nopush hpop hinv) ?_ kv hkv' hk
                left
                exact ⟨fm, hfm_rest, hfw, ⟨itl, hitl, hmem⟩,
                  Or.inr ⟨m.key, rfl, hmlt⟩⟩
        · -- phase 2: a key ≥ k has been emitted; nothing with key k comes out
          have hle := hinv.inv_prev pk hpk m hmm
          have hkm : keyLe k m.key = true := keyLe_trans hkpk hle
          have hne : ∀ kv' : KVPair, kv' = entryKV m → kv'.key = k → False := by
            intro kv' he hke
            have hmkk : m.key = k := by
              rw [he] at hke
              simpa [entryKV] using hke
            have h1 : pk = m.key := keyLe_antisymm hle (hmkk ▸ hkpk)
            exact hprev (h1 ▸ hpk)
          have hph2 : ∀ s' : MergeState, s'.previous_key = some m.key →
              NWphase k w s' := by
            intro s' hp
            exact Or.inr ⟨m.key, hp, hkm⟩
          rcases @mergeStream_step fuel _ _ _ hpop hprev with
            ⟨nxt, tl, hits2, heq⟩ | ⟨hbad, heq⟩
          · rw [heq] at hkv
            rcases List.mem_cons.mp hkv with hkv' | hkv'
            · exact absurd hk (fun hke => hne kv hkv' hke)
            · exact ih _ (INVm_emit_push hpop hits2 hinv) (hph2 _ rfl) kv hkv' hk
          · rw [heq] at hkv
            rcases List.mem_cons.mp hkv with hkv' | hkv'
            · exact absurd hk (fun hke => hne kv hkv' hke)
            · exact ih _ (INVm_emit_nopush hpop hinv) (hph2 _ rfl) kv hkv' hk

/-! ## The seeded initial state satisfies the merge invariants -/

theorem seedHeap_mem {inputs : List (List KVPair × Nat)} :
    ∀ {i : Nat} {m : MetaKey}, m ∈ seedHeap i inputs →
    ∃ j recs ts, inputs[j]? = some (recs, ts) ∧
      recs.head? = some ⟨m.key, m.value⟩ ∧ m.timestamp = ts ∧
      m.which_segment = i + j := by
  induction inputs with
  | nil => intro i m h; cases h
  | cons p rest ih =>
    intro i m h
    obtain ⟨recs, ts⟩ := p
    simp only [seedHeap] at h
    cases hh : recs.head? with
    | some kv =>
      rw [hh] at h
      rcases List.mem_cons.mp h with h' | h'
      · subst h'
        exact ⟨0, recs, ts, by simp, hh, rfl, rfl⟩
      · obtain ⟨j, recs', ts', hj, hhd, hts, hw⟩ := ih h'
        exact ⟨j + 1, recs', ts', by simpa using hj, hhd, hts, by omega⟩
    | none =>
      rw [hh] at h
      obtain ⟨j, recs', ts', hj, hhd, hts, hw⟩ := ih h
      exact ⟨j + 1, recs', ts', by simpa using hj, hhd, hts, by omega⟩

theorem seedHeap_mem_of {inputs : List (List KVPair × Nat)} :
    ∀ {i j : Nat} {recs : List KVPair} {ts : Nat} {kv : KVPair},
      inputs[j]? = some (recs, ts) → recs.head? = some kv →
      (⟨kv.key, kv.value, ts, i + j⟩ : MetaKey) ∈ seedHeap i inputs := by
  induction inputs with
  | nil => intro i j recs ts kv hj _; rw [List.getElem?_nil] at hj; cases hj
  | cons p rest ih =>
    intro i j recs ts kv hj hh
    obtain ⟨recs0, ts0⟩ := p
    cases j with
    | zero =>
      simp only [List.getElem?_cons_zero] at hj
      injection hj with hj
      injection hj with hj1 hj2
      subst hj1; subst hj2
      simp only [seedHeap, hh]
      exact List.mem_cons_self _ _
    | succ j =>
      simp only [List.getElem?_cons_succ] at hj
      have := @ih (i + 1) _ _ _ _ hj hh
      simp only [seedHeap]
      cases hh0 : recs0.head? with
      | some kv0 =>
        refine List.mem_cons_of_mem _ ?_
        have he : i + 1 + j = i + (j + 1) := by omega
        rw [← he]
        exact this
      | none =>
        have he : i + 1 + j = i + (j + 1) := by omega
        rw [← he]
        exact this

theorem seedHeap_which_ge {inputs : List (List KVPair × Nat)} :
    ∀ {i : Nat} {m : MetaKey}, m ∈ seedHeap i inputs → i ≤ m.which_segment := by
  intro i m h
  obtain ⟨j, _, _, _, _, _, hw⟩ := seedHeap_mem h
  omega

theorem seedHeap_pairwise (inputs : List (List KVPair × Nat)) :
    ∀ (i : Nat), (seedHeap i inputs).Pairwise
      (fun a b => a.which_segment ≠ b.which_segment) := by
  induction inputs with
  | nil => intro i; exact List.Pairwise.nil
  | cons p rest ih =>
    intro i
    obtain ⟨recs, ts⟩ := p
    simp only [seedHeap]
    cases hh : recs.head? with
    | some kv =>
      refine List.Pairwise.cons ?_ (ih (i + 1))
      intro m hm
      have := seedHeap_which_ge hm
      simp only
      omega
    | none => exact ih (i + 1)

/-- The initial merge state over sorted inputs with strictly increasing
timestamps satisfies the merge invariants. -/
theorem INVm_init {inputs : List (List KVPair × Nat)}
    (hsorted : ∀ p ∈ inputs, List.Chain' recLt p.1)
    (hts : List.Chain' (· < ·) (inputs.map Prod.snd)) :
    INVm (initMergeState inputs) := by
  have hts_pw : (inputs.map Prod.snd).Pairwise (· < ·) :=
    List.chain'_iff_pairwise.mp hts
  refine ⟨?_, ?_, ?_, ?_, ?_⟩
  · intro m hm
    obtain ⟨j, recs, ts, hj, _, _, hw⟩ := seedHeap_mem hm
    have hjlt : j < inputs.length := by
      by_contra hge
      rw [List.getElem?_eq_none (by omega)] at hj
      cases hj
    simp only [initMergeState, List.length_map]
    omega
  · exact seedHeap_pairwise inputs 0
  · intro a ha b hb hlt
    obtain ⟨ja, recsa, tsa, hja, _, htsa, hwa⟩ := seedHeap_mem ha
    obtain ⟨jb, recsb, tsb, hjb, _, htsb, hwb⟩ := seedHeap_mem hb
    have hja' : (inputs.map Prod.snd)[ja]? = some tsa := by
      rw [List.getElem?_map, hja]; rfl
    have hjb' : (inputs.map Prod.snd)[jb]? = some tsb := by
      rw [List.getElem?_map, hjb]; rfl
    have hjab : ja < jb := by omega
    have hlen : jb < (inputs.map Prod.snd).length := by
      by_contra hge
      rw [List.getElem?_eq_none (by omega)] at hjb'
      cases hjb'
    have := List.pairwise_iff_getElem.mp hts_pw ja jb (by omega) hlen hjab
    rw [List.getElem?_eq_getElem (by omega : ja < (inputs.map Prod.snd).length)] at hja'
    rw [List.getElem?_eq_getElem hlen] at hjb'
    injection hja' with hja'
    injection hjb' with hjb'
    rw [htsa, htsb, ← hja', ← hjb']
    exact this
  · intro m hm itl hitl
    obtain ⟨j, recs, ts, hj, hhd, _, hw⟩ := seedHeap_mem hm
    simp only [initMergeState] at hitl
    rw [hw] at hitl
    simp only [Nat.zero_add] at hitl
    rw [List.getElem?_map, hj] at hitl
    injection hitl with hitl
    have hrecs : recs = entryKV m :: itl := by
      cases recs with
      | nil => cases hhd
      | cons a l =>
        simp only [List.head?_cons] at hhd
        injection hhd with hhd
        simp only [List.tail_cons] at hitl
        rw [hhd, hitl]
        rfl
    exact hrecs ▸ hsorted (recs, ts) (List.getElem?_mem hj)
  · intro pk hpk
    simp only [initMergeState] at hpk
    cases hpk

/-- If the last input holds `(k, w)`, the initial state is in the
newest-wins phase. -/
theorem NWphase_init {inputs : List (List KVPair × Nat)} {k w : String}
    {recs : List KVPair} {ts : Nat}
    (hlast : inputs.getLast? = some (recs, ts))
    (hkw : (⟨k, w⟩ : KVPair) ∈ recs) :
    NWphase k w (initMergeState inputs) := by
  left
  have hne : inputs ≠ [] := by
    intro he
    rw [he] at hlast
    cases hlast
  have hlen : 0 < inputs.length := List.length_pos.mpr hne
  have hj : inputs[inputs.length - 1]? = some (recs, ts) := by
    rw [← List.getLast?_eq_getElem?]
    exact hlast
  have hrne : recs ≠ [] := List.ne_nil_of_mem hkw
  obtain ⟨hd, tl, hrecs⟩ := List.exists_cons_of_ne_nil hrne
  have hhd : recs.head? = some hd := by rw [hrecs]; rfl
  have hmem := @seedHeap_mem_of _ 0 _ _ _ _ hj hhd
  refine ⟨⟨hd.key, hd.value, ts, 0 + (inputs.length - 1)⟩, hmem, ?_, ?_, Or.inl rfl⟩
  · simp only [initMergeState, List.length_map]
    omega
  · refine ⟨recs.tail, ?_, ?_⟩
    · simp only [initMergeState]
      rw [List.getElem?_map, Nat.zero_add, hj]
      rfl
    · have : entryKV ⟨hd.key, hd.value, ts, 0 + (inputs.length - 1)⟩ :: recs.tail =
          recs := by
        rw [hrecs]
        rfl
      rw [this]
      exact hkw

/-- The concatenated records of the segments the write loop returns are
exactly the already-written records followed by the remaining stream. -/
theorem mergeWriteLoop_flat {T : Nat} :
    ∀ (stream : List KVPair) (cur : Segment) (cnt : Nat) (acc : List Segment)
      (cbs : List (Nat × Nat × String)) (now clock' : Nat)
      (segs : List Segment) (cbs' : List (Nat × Nat × String)),
      mergeWriteLoop T stream cur cnt acc cbs now = .ok (segs, cbs', clock') →
      segs.flatMap Segment.records =
        acc.flatMap Segment.records ++ cur.records ++ stream := by
  intro stream
  induction stream with
  | nil =>
    intro cur cnt acc cbs now clock' segs cbs' h
    simp only [mergeWriteLoop] at h
    by_cases hsz : cur.size > 0
    · rw [if_pos hsz] at h
      simp only [Except.ok.injEq, Prod.mk.injEq] at h
      obtain ⟨h1, _, _⟩ := h
      subst h1
      simp
    · rw [if_neg hsz] at h
      simp only [Except.ok.injEq, Prod.mk.injEq] at h
      obtain ⟨h1, _, _⟩ := h
      subst h1
      have hcur : cur.records = [] :=
        List.length_eq_zero.mp (by simp only [Segment.size] at hsz; omega)
      simp [hcur]
  | cons kv rest ih =>
    intro cur cnt acc cbs now clock' segs cbs' h
    simp only [mergeWriteLoop] at h
    by_cases hsz : cur.size = T
    · rw [if_pos hsz] at h
      cases hw : (Segment.temp now).write kv.key kv.value with
      | error er => rw [hw] at h; cases h
      | ok p =>
        obtain ⟨off, seg'⟩ := p
        rw [hw] at h
        obtain ⟨_, hrec, _, _⟩ := Segment.write_ok hw
        have := ih seg' (cnt + 1) (acc ++ [cur]) _ _ clock' segs cbs' h
        rw [this, hrec]
        simp [Segment.temp]
    · rw [if_neg hsz] at h
      cases hw : cur.write kv.key kv.value with
      | error er => rw [hw] at h; cases h
      | ok p =>
        obtain ⟨off, cur'⟩ := p
        rw [hw] at h
        obtain ⟨_, hrec, _, _⟩ := Segment.write_ok hw
        have := ih cur' cnt acc _ _ clock' segs cbs' h
        rw [this, hrec]
        simp

/-- Every record in a merge output segment is a record of one of the
input segments (the merge may lose records, but never invents them). -/
theorem merge_records_mem {segments : List Segment} {T now : Nat}
    {segs : List Segment} {cbs : List (Nat × Nat × String)} {clock' : Nat}
    (h : merge segments T now = .ok (segs, cbs, clock')) :
    ∀ seg ∈ segs, ∀ kv ∈ seg.records, ∃ seg0 ∈ segments, kv ∈ seg0.records := by
  intro seg hseg kv hkv
  unfold merge at h
  have hflat := mergeWriteLoop_flat _ (Segment.temp now) 0 [] [] _ clock' segs cbs h
  have hkv_flat : kv ∈ segs.flatMap Segment.records := by
    rw [List.mem_flatMap]
    exact ⟨seg, hseg, hkv⟩
  rw [hflat] at hkv_flat
  simp only [List.flatMap_nil, Segment.temp, List.nil_append] at hkv_flat
  have hkv_stream : kv ∈ mergeStream
      (mergeWeight (initMergeState
        (segments.map (fun s => (s.read_from_start, s.created_at)))))
      (initMergeState (segments.map (fun s => (s.read_from_start, s.created_at)))) := by
    simpa using hkv_flat
  have := mergeStream_subset _ _ kv hkv_stream
  rcases List.mem_append.mp this with hh | ht
  · simp only [List.mem_map] at hh
    obtain ⟨m, hm, he⟩ := hh
    obtain ⟨j, recs, ts, hj, hhd, _, _⟩ := seedHeap_mem hm
    rw [List.getElem?_map] at hj
    cases hg : segments[j]? with
    | none => rw [hg] at hj; cases hj
    | some seg0 =>
      rw [hg] at hj
      injection hj with hj
      injection hj with hj1 hj2
      refine ⟨seg0, List.getElem?_mem hg, ?_⟩
      have : kv ∈ recs := by
        rw [← he]
        cases recs with
        | nil => cases hhd
        | cons a l =>
          simp only [List.head?_cons] at hhd
          injection hhd with hhd
          rw [hhd]
          exact List.mem_cons_self _ _
      rw [← hj1] at this
      simpa [Segment.read_from_start] using this
  · rw [List.mem_flatten] at ht
    obtain ⟨sub, hsub, hkvs⟩ := ht
    simp only [initMergeState, List.map_map, List.mem_map] at hsub
    obtain ⟨seg0, hseg0, he⟩ := hsub
    refine ⟨seg0, hseg0, ?_⟩
    have : kv ∈ seg0.read_from_start.tail := by rw [← he] at hkvs; exact hkvs
    simp only [Segment.read_from_start] at this
    exact List.mem_of_mem_tail this

/-- Newest wins through `merge`: if the last input segment (the one with
the greatest timestamp) holds `(k, w)`, every output record with key `k`
has value `w`. -/
theorem merge_k_value {segments : List Segment} {T now : Nat}
    {segs : List Segment} {cbs : List (Nat × Nat × String)} {clock' : Nat}
    {k w : String}
    (hsorted : ∀ seg ∈ segments, List.Chain' recLt seg.records)
    (hts : List.Chain' (· < ·) (segments.map Segment.created_at))
    {last : Segment} (hlast : segments.getLast? = some last)
    (hkw : (⟨k, w⟩ : KVPair) ∈ last.records)
    (h : merge segments T now = .ok (segs, cbs, clock')) :
    ∀ seg ∈ segs, ∀ kv ∈ seg.records, kv.key = k → kv.value = w := by
  intro seg hseg kv hkv hk
  unfold merge at h
  have hflat := mergeWriteLoop_flat _ (Segment.temp now) 0 [] [] _ clock' segs cbs h
  have hkv_flat : kv ∈ segs.flatMap Segment.records := by
    rw [List.mem_flatMap]
    exact ⟨seg, hseg, hkv⟩
  rw [hflat] at hkv_flat
  have hkv_stream : kv ∈ mergeStream
      (mergeWeight (initMergeState
        (segments.map (fun s => (s.read_from_start, s.created_at)))))
      (initMergeState (segments.map (fun s => (s.read_from_start, s.created_at)))) := by
    simpa [Segment.temp] using hkv_flat
  have hinv : INVm (initMergeState
      (segments.map (fun s => (s.read_from_start, s.created_at)))) := by
    refine INVm_init ?_ ?_
    · intro p hp
      simp only [List.mem_map] at hp
      obtain ⟨seg0, hseg0, he⟩ := hp
      rw [← he]
      exact hsorted seg0 hseg0
    · have : (segments.map (fun s => (s.read_from_start, s.created_at))).map
          Prod.snd = segments.map Segment.created_at := by
        rw [List.map_map]
        rfl
      rw [this]
      exact hts
  have hph : NWphase k w (initMergeState
      (segments.map (fun s => (s.read_from_start, s.created_at)))) := by
    refine @NWphase_init _ _ _ last.read_from_start last.created_at ?_ hkw
    rw [List.getLast?_map, hlast]
    rfl
  exact mergeStream_nw k w _ _ hinv hph kv hkv_stream hk

/-- A successful exact lookup names an entry of the map. -/
theorem btLookup_some_mem {α : Type} {k : String} {l : List (String × α)} {v : α}
    (h : btLookup k l = some v) : (k, v) ∈ l := by
  unfold btLookup at h
  cases hf : l.find? (fun p => p.1 = k) with
  | none => rw [hf] at h; cases h
  | some p =>
    rw [hf] at h
    obtain ⟨a, b⟩ := p
    have hk : a = k := by
      have := List.find?_some hf
      simpa using this
    have hv : b = v := by simpa using h
    have hmem := List.mem_of_find?_eq_some hf
    rw [← hk, ← hv]
    exact hmem

/-- A failed exact lookup means no entry of the map has the key. -/
theorem btLookup_none_keys {α : Type} {k : String} {l : List (String × α)}
    (h : btLookup k l = none) : ∀ p ∈ l, p.1 ≠ k := by
  unfold btLookup at h
  cases hf : l.find? (fun p => p.1 = k) with
  | some p => rw [hf] at h; cases h
  | none =>
    intro p hp
    have := List.find?_eq_none.mp hf p hp
    simpa using this

/-- Strict key order on map entries. -/
def entLt {α : Type} (a b : String × α) : Prop := keyLt a.1 b.1 = true

instance {α : Type} : IsTrans (String × α) entLt :=
  ⟨fun _ _ _ h1 h2 => keyLt_trans h1 h2⟩

/-- `btInsert` keeps the entry list strictly sorted by key. -/
theorem btInsert_pairwise {α : Type} {k : String} {v : α} {l : List (String × α)}
    (h : l.Pairwise entLt) : (btInsert k v l).Pairwise entLt := by
  induction l with
  | nil => simp [btInsert, List.pairwise_singleton]
  | cons p rest ih =>
    obtain ⟨k', v'⟩ := p
    rcases List.pairwise_cons.mp h with ⟨hhead, htail⟩
    by_cases hlt : keyLt k k' = true
    · simp only [btInsert]
      rw [if_pos hlt]
      refine List.pairwise_cons.mpr ⟨?_, h⟩
      intro b hb
      rcases List.mem_cons.mp hb with hb' | hb'
      · rw [hb']; exact hlt
      · exact keyLt_trans hlt (hhead b hb')
    · simp only [btInsert]
      rw [if_neg hlt]
      by_cases heq : k = k'
      · rw [if_pos heq]
        refine List.pairwise_cons.mpr ⟨?_, htail⟩
        intro b hb
        have hb2 := hhead b hb
        unfold entLt at hb2 ⊢
        rw [heq]
        exact hb2
      · rw [if_neg heq]
        refine List.pairwise_cons.mpr ⟨?_, ih htail⟩
        intro b hb
        rcases mem_btInsert hb with hb' | hb'
        · rw [hb']
          rcases keyLt_total k k' with h1 | h1 | h1
          · exact absurd h1 hlt
          · exact h1
          · exact absurd h1 heq
        · exact hhead b hb'

/-- The batch write of a drained memtable: the segment gains exactly the
drained records, in order, and keeps its creation time. -/
theorem segWriteAll_ok : ∀ {entries : List (String × String)} {seg seg' : Segment},
    segWriteAll seg entries = .ok seg' →
    seg'.records = seg.records ++ entries.map (fun p => (⟨p.1, p.2⟩ : KVPair)) ∧
    seg'.created_at = seg.created_at := by
  intro entries
  induction entries with
  | nil =>
    intro seg seg' h
    simp only [segWriteAll] at h
    injection h with h
    subst h
    simp
  | cons p rest ih =>
    intro seg seg' h
    obtain ⟨k, v⟩ := p
    simp only [segWriteAll] at h
    cases hw : seg.write k v with
    | error er => rw [hw] at h; cases h
    | ok q =>
      obtain ⟨off, seg1⟩ := q
      rw [hw] at h
      obtain ⟨_, hrec, _, hca⟩ := Segment.write_ok hw
      obtain ⟨h1, h2⟩ := ih h
      refine ⟨?_, by rw [h2, hca]⟩
      rw [h1, hrec]
      simp

/-- If every record with the probed key in every remaining segment is a
tombstone, the tail scan of `read` comes back empty. -/
theorem scanTail_tomb {k : String} : ∀ {segs : List Segment},
    (∀ seg ∈ segs, ∀ kv ∈ seg.records, kv.key = k → kv.value = TOMBSTONE_VALUE) →
    scanTail k segs = none := by
  intro segs
  induction segs with
  | nil => intro _; rfl
  | cons seg rest ih =>
    intro hall
    simp only [scanTail]
    cases hs : seg.search_from_start k with
    | some v =>
      have hmem := Segment.search_from_mem hs
      have hv : v = TOMBSTONE_VALUE :=
        hall seg (List.mem_cons_self seg rest) ⟨k, v⟩ hmem rfl
      rw [hv]
      simp
    | none =>
      exact ih (fun s hs' kv hkv hk => hall s (List.mem_cons_of_mem seg hs') kv hkv hk)

/-- The record list of a member segment is a sublist of the concatenated
record lists. -/
theorem records_sublist_flat : ∀ {segs : List Segment} {seg : Segment},
    seg ∈ segs → seg.records.Sublist (segs.flatMap Segment.records) := by
  intro segs
  induction segs with
  | nil => intro seg h; cases h
  | cons s rest ih =>
    intro seg h
    rcases List.mem_cons.mp h with h' | h'
    · subst h'
      simp only [List.flatMap_cons]
      exact List.sublist_append_left _ _
    · simp only [List.flatMap_cons]
      exact (ih h').trans (List.sublist_append_right _ _)

/-- Creation times through the write loop: each sealed segment keeps the
clock value of the temporary it grew from, seals use strictly increasing
clock values, and the returned clock is above all of them. -/
theorem mergeWriteLoop_ts {T : Nat} :
    ∀ (stream : List KVPair) (cur : Segment) (cnt : Nat) (acc : List Segment)
      (cbs : List (Nat × Nat × String)) (now clock' : Nat)
      (segs : List Segment) (cbs' : List (Nat × Nat × String)),
      mergeWriteLoop T stream cur cnt acc cbs now = .ok (segs, cbs', clock') →
      (acc.map Segment.created_at ++ [cur.created_at]).Pairwise (· < ·) →
      cur.created_at < now →
      (segs.map Segment.created_at).Pairwise (· < ·) ∧
        ∀ seg ∈ segs, seg.created_at < clock' := by
  intro stream
  induction stream with
  | nil =>
    intro cur cnt acc cbs now clock' segs cbs' h hpw hlt
    simp only [mergeWriteLoop] at h
    have hacc : ∀ x ∈ acc.map Segment.created_at, x < cur.created_at :=
      fun x hx => (List.pairwise_append.mp hpw).2.2 x hx cur.created_at
        (List.mem_singleton.mpr rfl)
    by_cases hsz : cur.size > 0
    · rw [if_pos hsz] at h
      simp only [Except.ok.injEq, Prod.mk.injEq] at h
      obtain ⟨h1, _, h3⟩ := h
      subst h1; subst h3
      constructor
      · simpa using hpw
      · intro seg hseg
        rcases List.mem_append.mp hseg with hseg' | hseg'
        · exact lt_trans (hacc _ (List.mem_map_of_mem _ hseg')) hlt
        · rw [List.mem_singleton.mp hseg']
          exact hlt
    · rw [if_neg hsz] at h
      simp only [Except.ok.injEq, Prod.mk.injEq] at h
      obtain ⟨h1, _, h3⟩ := h
      subst h1; subst h3
      constructor
      · exact (List.pairwise_append.mp hpw).1
      · intro seg hseg
        exact lt_trans (hacc _ (List.mem_map_of_mem _ hseg)) hlt
  | cons kv rest ih =>
    intro cur cnt acc cbs now clock' segs cbs' h hpw hlt
    simp only [mergeWriteLoop] at h
    by_cases hsz : cur.size = T
    · rw [if_pos hsz] at h
      cases hw : (Segment.temp now).write kv.key kv.value with
      | error er => rw [hw] at h; cases h
      | ok p =>
        obtain ⟨off, seg'⟩ := p
        rw [hw] at h
        obtain ⟨_, _, _, hca⟩ := Segment.write_ok hw
        have hca' : seg'.created_at = now := hca
        refine ih seg' (cnt + 1) (acc ++ [cur]) _ _ clock' segs cbs' h ?_ ?_
        · rw [hca']
          simp only [List.map_append, List.map_cons, List.map_nil]
          rw [List.append_assoc]
          refine List.pairwise_append.mpr ⟨(List.pairwise_append.mp hpw).1, ?_, ?_⟩
          · refine List.pairwise_append.mpr
              ⟨List.pairwise_singleton _ _, List.pairwise_singleton _ _, ?_⟩
            intro x hx y hy
            rw [List.mem_singleton.mp hx, List.mem_singleton.mp hy]
            exact hlt
          · intro x hx y hy
            have hxc : x < cur.created_at := (List.pairwise_append.mp hpw).2.2 x hx
              cur.created_at (List.mem_singleton.mpr rfl)
            rcases List.mem_append.mp hy with hy' | hy'
            · rw [List.mem_singleton.mp hy']
              exact hxc
            · rw [List.mem_singleton.mp hy']
              exact lt_trans hxc hlt
        · rw [hca']
          omega
    · rw [if_neg hsz] at h
      cases hw : cur.write kv.key kv.value with
      | error er => rw [hw] at h; cases h
      | ok p =>
        obtain ⟨off, cur'⟩ := p
        rw [hw] at h
        obtain ⟨_, _, _, hca⟩ := Segment.write_ok hw
        refine ih cur' cnt acc _ _ clock' segs cbs' h ?_ ?_
        · rw [hca]; exact hpw
        · rw [hca]; exact hlt

/-- `merge` on sorted inputs with strictly increasing creation times
yields sorted output segments with strictly increasing creation times,
all strictly below the returned clock. -/
theorem merge_inv {segments : List Segment} {T now : Nat}
    {segs : List Segment} {cbs : List (Nat × Nat × String)} {clock' : Nat}
    (hsorted : ∀ seg ∈ segments, List.Chain' recLt seg.records)
    (hts : List.Chain' (· < ·) (segments.map Segment.created_at))
    (h : merge segments T now = .ok (segs, cbs, clock')) :
    (∀ seg ∈ segs, List.Chain' recLt seg.records) ∧
    List.Chain' (· < ·) (segs.map Segment.created_at) ∧
    (∀ seg ∈ segs, seg.created_at < clock') := by
  unfold merge at h
  have hinv : INVm (initMergeState
      (segments.map (fun s => (s.read_from_start, s.created_at)))) := by
    refine INVm_init ?_ ?_
    · intro p hp
      simp only [List.mem_map] at hp
      obtain ⟨seg0, hseg0, he⟩ := hp
      rw [← he]
      exact hsorted seg0 hseg0
    · have heq : (segments.map (fun s => (s.read_from_start, s.created_at))).map
          Prod.snd = segments.map Segment.created_at := by
        rw [List.map_map]
        rfl
      rw [heq]
      exact hts
  have hflat := mergeWriteLoop_flat _ (Segment.temp now) 0 [] [] _ clock' segs cbs h
  have hchain : List.Chain' recLt (segs.flatMap Segment.records) := by
    rw [hflat]
    simp only [List.flatMap_nil, Segment.temp, List.nil_append]
    exact (mergeStream_sorted _ _ hinv).2
  have hts' := mergeWriteLoop_ts _ (Segment.temp now) 0 [] [] _ clock' segs cbs h
    (by simp [Segment.temp]) (by simp [Segment.temp])
  refine ⟨?_, List.chain'_iff_pairwise.mpr hts'.1, hts'.2⟩
  intro seg hseg
  have hpw := List.chain'_iff_pairwise.mp hchain
  exact List.chain'_iff_pairwise.mpr (hpw.sublist (records_sublist_flat hseg))

/-- The reachable-state invariant of the engine: the memtable is strictly
sorted by key, every segment's records are strictly sorted by key, the
segments' creation times strictly increase (oldest first), and all of
them lie strictly below the engine clock. -/
structure EngineInv (e : LSMEngine) : Prop where
  inv_mt : e.memtable.entries.Pairwise entLt
  inv_seg_sorted : ∀ seg ∈ e.segments, List.Chain' recLt seg.records
  inv_ts : List.Chain' (· < ·) (e.segments.map Segment.created_at)
  inv_clock : ∀ seg ∈ e.segments, seg.created_at < e.clock

/-- A deletion is in force for `k`: either the memtable holds the
tombstone for `k`, or the memtable has no entry for `k` and every
segment record with key `k` is a tombstone. -/
def Shadow (e : LSMEngine) (k : String) : Prop :=
  e.memtable.get k = some TOMBSTONE_VALUE ∨
  (e.memtable.get k = none ∧
    ∀ seg ∈ e.segments, ∀ kv ∈ seg.records, kv.key = k → kv.value = TOMBSTONE_VALUE)

theorem EngineInv_new (M T S : Nat) (w : Option (List KVPair)) :
    EngineInv (LSMEngine.new M T S w) :=
  ⟨List.Pairwise.nil, fun seg h => absurd h (List.not_mem_nil seg), List.chain'_nil,
   fun seg h => absurd h (List.not_mem_nil seg)⟩

theorem EngineInv_walAppend {e : LSMEngine} (hinv : EngineInv e) (k v : String) :
    EngineInv (walAppend e k v) := by
  refine ⟨?_, ?_, ?_, ?_⟩
  · rw [walAppend_memtable]; exact hinv.inv_mt
  · rw [walAppend_segments]; exact hinv.inv_seg_sorted
  · rw [walAppend_segments]; exact hinv.inv_ts
  · intro seg hseg
    rw [walAppend_clock]
    rw [walAppend_segments] at hseg
    exact hinv.inv_clock seg hseg

theorem Shadow_walAppend {e : LSMEngine} {k : String} (hsh : Shadow e k)
    (k2 v : String) : Shadow (walAppend e k2 v) k := by
  unfold Shadow at hsh ⊢
  rw [walAppend_memtable, walAppend_segments]
  exact hsh

/-- The flushing branch of `writeCore`, fully decomposed. -/
theorem writeCore_flush_fields {e e' : LSMEngine} {k v : String}
    (hc : (e.memtable.at_capacity && ! e.memtable.contains k) = true)
    (h : writeCore e k v = .ok e') :
    ∃ new_segment segs cbs clock',
      segWriteAll (Segment.temp e.clock) e.memtable.entries = .ok new_segment ∧
      merge (e.segments ++ [new_segment]) e.segment_size (e.clock + 1) =
        .ok (segs, cbs, clock') ∧
      e'.memtable = { entries := btInsert k v [], capacity := e.memtable.capacity } ∧
      e'.segments = segs ∧ e'.clock = clock' ∧ e'.segment_size = e.segment_size ∧
      e'.sparse_memory_index = buildSparse e.sparse_offset cbs 0 [] := by
  unfold writeCore at h
  rw [if_pos hc] at h
  cases hf : e.flush_memtable with
  | error er => rw [hf] at h; cases h
  | ok p =>
    obtain ⟨ns, e1⟩ := p
    rw [hf] at h
    obtain ⟨he1, hsw⟩ := flush_memtable_fields hf
    subst he1
    obtain ⟨hmem, _, hss, _, segs, cbs, clock', hmerge, hsegs, hclock, hsparse⟩ :=
      merge_segments_fields h
    refine ⟨ns, segs, cbs, clock', hsw, hmerge, ?_, hsegs, hclock, ?_, ?_⟩
    · rw [hmem]; rfl
    · rw [hss]
    · rw [hsparse]

/-- The segment a flush produces: sorted records, stamped with the
pre-flush clock. -/
theorem flush_records_sorted {e : LSMEngine} {ns : Segment}
    (hmt : e.memtable.entries.Pairwise entLt)
    (hsw : segWriteAll (Segment.temp e.clock) e.memtable.entries = .ok ns) :
    List.Chain' recLt ns.records ∧ ns.created_at = e.clock := by
  obtain ⟨hrec, hca⟩ := segWriteAll_ok hsw
  constructor
  · rw [hrec]
    simp only [Segment.temp, List.nil_append]
    exact List.chain'_iff_pairwise.mpr
      (List.Pairwise.map _ (fun a b hab => hab) hmt)
  · rw [hca]
    rfl

/-- Pushing a freshly flushed segment keeps the per-segment sortedness
and the creation-time chain that `merge` needs. -/
theorem push_seg_inv {e : LSMEngine} {ns : Segment} (hinv : EngineInv e)
    (hns : List.Chain' recLt ns.records) (hca : ns.created_at = e.clock) :
    (∀ seg ∈ e.segments ++ [ns], List.Chain' recLt seg.records) ∧
    List.Chain' (· < ·) ((e.segments ++ [ns]).map Segment.created_at) := by
  constructor
  · intro seg hseg
    rcases List.mem_append.mp hseg with h' | h'
    · exact hinv.inv_seg_sorted seg h'
    · rw [List.mem_singleton.mp h']
      exact hns
  · rw [List.map_append]
    refine List.chain'_iff_pairwise.mpr
      (List.pairwise_append.mpr ⟨List.chain'_iff_pairwise.mp hinv.inv_ts, ?_, ?_⟩)
    · simp
    · intro x hx y hy
      simp only [List.map_cons, List.map_nil, List.mem_singleton] at hy
      subst hy
      simp only [List.mem_map] at hx
      obtain ⟨s, hs, hxe⟩ := hx
      rw [← hxe, hca]
      exact hinv.inv_clock s hs

/-- `writeCore` preserves the reachable-state invariant. -/
theorem EngineInv_writeCore {e e' : LSMEngine} {k v : String}
    (hinv : EngineInv e) (h : writeCore e k v = .ok e') : EngineInv e' := by
  by_cases hc : (e.memtable.at_capacity && ! e.memtable.contains k) = true
  · obtain ⟨ns, segs, cbs, clock', hsw, hmerge, hmem, hsegs, hclock, _, _⟩ :=
      writeCore_flush_fields hc h
    obtain ⟨hns, hca⟩ := flush_records_sorted hinv.inv_mt hsw
    obtain ⟨hsall, hts_in⟩ := push_seg_inv hinv hns hca
    obtain ⟨ho1, ho2, ho3⟩ := merge_inv hsall hts_in hmerge
    refine ⟨?_, ?_, ?_, ?_⟩
    · rw [hmem]
      simp [btInsert]
    · rw [hsegs]; exact ho1
    · rw [hsegs]; exact ho2
    · rw [hsegs, hclock]; exact ho3
  · unfold writeCore at h
    rw [if_neg hc] at h
    injection h with h
    subst h
    exact ⟨btInsert_pairwise hinv.inv_mt, hinv.inv_seg_sorted, hinv.inv_ts,
           hinv.inv_clock⟩

/-- `writeCore` of another key preserves an in-force deletion. -/
theorem Shadow_writeCore {e e' : LSMEngine} {k k2 v : String}
    (hinv : EngineInv e) (hsh : Shadow e k) (hne : k2 ≠ k)
    (h : writeCore e k2 v = .ok e') : Shadow e' k := by
  unfold Shadow at hsh ⊢
  by_cases hc : (e.memtable.at_capacity && ! e.memtable.contains k2) = true
  · obtain ⟨ns, segs, cbs, clock', hsw, hmerge, hmem, hsegs, _, _, _⟩ :=
      writeCore_flush_fields hc h
    obtain ⟨hns, hca⟩ := flush_records_sorted hinv.inv_mt hsw
    obtain ⟨hrec, _⟩ := segWriteAll_ok hsw
    obtain ⟨hsall, hts_in⟩ := push_seg_inv hinv hns hca
    right
    constructor
    · rw [hmem]
      simp only [Memtable.get]
      rw [btLookup_insert_ne (Ne.symm hne)]
      rfl
    · rw [hsegs]
      rcases hsh with hT | ⟨hnone, hall⟩
      · have hmemk : (k, TOMBSTONE_VALUE) ∈ e.memtable.entries :=
          btLookup_some_mem hT
        have hkrec : (⟨k, TOMBSTONE_VALUE⟩ : KVPair) ∈ ns.records := by
          rw [hrec]
          simp only [Segment.temp, List.nil_append, List.mem_map]
          exact ⟨(k, TOMBSTONE_VALUE), hmemk, rfl⟩
        intro seg hseg kv hkv hk
        exact merge_k_value hsall hts_in (List.getLast?_concat _) hkrec hmerge
          seg hseg kv hkv hk
      · have hk_not : ∀ p ∈ e.memtable.entries, p.1 ≠ k := btLookup_none_keys hnone
        intro seg hseg kv hkv hk
        obtain ⟨seg0, hseg0, hkv0⟩ := merge_records_mem hmerge seg hseg kv hkv
        rcases List.mem_append.mp hseg0 with h0 | h0
        · exact hall seg0 h0 kv hkv0 hk
        · rw [List.mem_singleton.mp h0] at hkv0
          rw [hrec] at hkv0
          simp only [Segment.temp, List.nil_append, List.mem_map] at hkv0
          obtain ⟨p, hp, hpe⟩ := hkv0
          exfalso
          apply hk_not p hp
          rw [← hpe] at hk
          exact hk
  · unfold writeCore at h
    rw [if_neg hc] at h
    injection h with h
    subst h
    rcases hsh with hT | ⟨hnone, hall⟩
    · left
      simp only [Memtable.get, Memtable.insert]
      rw [btLookup_insert_ne (Ne.symm hne)]
      exact hT
    · right
      refine ⟨?_, hall⟩
      simp only [Memtable.get, Memtable.insert]
      rw [btLookup_insert_ne (Ne.symm hne)]
      exact hnone

/-- An in-force deletion is invisible to `read`. -/
theorem Shadow_read {e : LSMEngine} {k : String} (h : Shadow e k) :
    e.read k = none := by
  unfold Shadow at h
  unfold LSMEngine.read
  rcases h with hT | ⟨hget, hsegs⟩
  · rw [hT]
    simp
  · simp only [hget]
    cases hle : btLookupLE k e.sparse_memory_index with
    | none => simp only [hle]
    | some p =>
      obtain ⟨pk, key_offset, segment_index⟩ := p
      simp only [hle]
      unfold readSegments
      cases hd : e.segments.drop segment_index with
      | nil => simp only [hd]
      | cons seg rest =>
        simp only [hd]
        have hsegmem : seg ∈ e.segments := by
          have hmem : seg ∈ e.segments.drop segment_index := by
            rw [hd]; exact List.mem_cons_self _ _
          exact (e.segments.drop_sublist segment_index).mem hmem
        cases hs : seg.search_from k key_offset with
        | some v =>
          have hmem := Segment.search_from_mem hs
          have hv : v = TOMBSTONE_VALUE := hsegs seg hsegmem ⟨k, v⟩ hmem rfl
          subst hv
          simp [hs]
        | none =>
          simp only [hs]
          apply scanTail_tomb
          intro s hsr kv hkv hk
          have hsmem : s ∈ e.segments := by
            have hmem : s ∈ e.segments.drop segment_index := by
              rw [hd]; exact List.mem_cons_of_mem _ hsr
            exact (e.segments.drop_sublist segment_index).mem hmem
          exact hsegs s hsmem kv hkv hk

/-- A successful tombstone write leaves the tombstone in the memtable. -/
theorem writeCore_tomb_get {e e' : LSMEngine} {k : String}
    (h : writeCore e k TOMBSTONE_VALUE = .ok e') :
    e'.memtable.get k = some TOMBSTONE_VALUE := by
  obtain ⟨entries, hm⟩ := writeCore_memtable_shape h
  rw [hm]
  simp only [Memtable.get]
  exact btLookup_insert_self k TOMBSTONE_VALUE entries

/-- A successful `delete` puts the deletion in force. -/
theorem Shadow_establish {e e' : LSMEngine} {k : String}
    (h : execOp e (.delete k) = .ok e') : Shadow e' k := by
  simp only [execOp, LSMEngine.delete, LSMEngine.write] at h
  exact Or.inl (writeCore_tomb_get h)

/-- Every successful engine operation preserves the invariant. -/
theorem EngineInv_execOp {e e' : LSMEngine} {op : Op}
    (hinv : EngineInv e) (h : execOp e op = .ok e') : EngineInv e' := by
  cases op with
  | write k v =>
    simp only [execOp, LSMEngine.write] at h
    exact EngineInv_writeCore (EngineInv_walAppend hinv k v) h
  | delete k =>
    simp only [execOp, LSMEngine.delete, LSMEngine.write] at h
    exact EngineInv_writeCore
      (EngineInv_walAppend (EngineInv_walAppend hinv k TOMBSTONE_VALUE) k
        TOMBSTONE_VALUE) h

/-- Every successful operation on a different key keeps a deletion in
force. -/
theorem Shadow_execOp {e e' : LSMEngine} {op : Op} {k : String}
    (hinv : EngineInv e) (hsh : Shadow e k) (hne : op.key ≠ k)
    (h : execOp e op = .ok e') : Shadow e' k := by
  cases op with
  | write k2 v =>
    simp only [execOp, LSMEngine.write] at h
    simp only [Op.key] at hne
    exact Shadow_writeCore (EngineInv_walAppend hinv k2 v)
      (Shadow_walAppend hsh k2 v) hne h
  | delete k2 =>
    simp only [execOp, LSMEngine.delete, LSMEngine.write] at h
    simp only [Op.key] at hne
    exact Shadow_writeCore
      (EngineInv_walAppend (EngineInv_walAppend hinv k2 TOMBSTONE_VALUE) k2
        TOMBSTONE_VALUE)
      (Shadow_walAppend (Shadow_walAppend hsh k2 TOMBSTONE_VALUE) k2
        TOMBSTONE_VALUE) hne h

/-- A successful run of key-disjoint operations keeps a deletion in
force (and the invariant). -/
theorem Shadow_execOps : ∀ {ops : List Op} {e e' : LSMEngine} {k : String},
    EngineInv e → Shadow e k → (∀ op ∈ ops, op.key ≠ k) →
    execOps e ops = .ok e' → Shadow e' k ∧ EngineInv e' := by
  intro ops
  induction ops with
  | nil =>
    intro e e' k hinv hsh _ h
    unfold execOps at h
    injection h with h
    subst h
    exact ⟨hsh, hinv⟩
  | cons op rest ih =>
    intro e e' k hinv hsh hkeys h
    unfold execOps at h
    cases hstep : execOp e op with
    | error er => rw [hstep] at h; cases h
    | ok e1 =>
      rw [hstep] at h
      exact ih (EngineInv_execOp hinv hstep)
        (Shadow_execOp hinv hsh (hkeys op (List.mem_cons_self op rest)) hstep)
        (fun o ho => hkeys o (List.mem_cons_of_mem op ho)) h

/-- The invariant holds after any successful run from an invariant
state. -/
theorem EngineInv_execOps : ∀ {ops : List Op} {e e' : LSMEngine},
    EngineInv e → execOps e ops = .ok e' → EngineInv e' := by
  intro ops
  induction ops with
  | nil =>
    intro e e' hinv h
    unfold execOps at h
    injection h with h
    subst h
    exact hinv
  | cons op rest ih =>
    intro e e' hinv h
    unfold execOps at h
    cases hstep : execOp e op with
    | error er => rw [hstep] at h; cases h
    | ok e1 =>
      rw [hstep] at h
      exact ih (EngineInv_execOp hinv hstep) h

/-- Splitting a successful run at any point. -/
theorem execOps_append : ∀ {ops1 ops2 : List Op} {e e' : LSMEngine},
    execOps e (ops1 ++ ops2) = .ok e' →
    ∃ e1, execOps e ops1 = .ok e1 ∧ execOps e1 ops2 = .ok e' := by
  intro ops1
  induction ops1 with
  | nil =>
    intro ops2 e e' h
    exact ⟨e, rfl, h⟩
  | cons op rest ih =>
    intro ops2 e e' h
    rw [List.cons_append] at h
    unfold execOps at h
    cases hstep : execOp e op with
    | error er => rw [hstep] at h; cases h
    | ok e1 =>
      rw [hstep] at h
      obtain ⟨e2, h1, h2⟩ := ih h
      refine ⟨e2, ?_, h2⟩
      unfold execOps
      rw [hstep]
      exact h1

/-- **C4** — Delete visibility: on a freshly built engine of any
configuration, after any prior operations, a successful `delete k`
followed by any successful operations that do not touch `k` (which may
trigger flushes and merge passes that move the tombstone into segments)
leaves `read k = none`. -/
theorem c4_delete_visibility (M T S : Nat) (w0 : Option (List KVPair))
    (ops1 ops2 : List Op) (k : String) (e' : LSMEngine)
    (hkeys : ∀ op ∈ ops2, op.key ≠ k)
    (h : execOps (LSMEngine.new M T S w0) (ops1 ++ Op.delete k :: ops2) = .ok e') :
    e'.read k = none := by
  obtain ⟨e1, h1, h2⟩ := execOps_append h
  have hinv1 : EngineInv e1 := EngineInv_execOps (EngineInv_new M T S w0) h1
  unfold execOps at h2
  cases hstep : execOp e1 (Op.delete k) with
  | error er => rw [hstep] at h2; cases h2
  | ok e2 =>
    rw [hstep] at h2
    have hsh2 : Shadow e2 k := Shadow_establish hstep
    have hinv2 : EngineInv e2 := EngineInv_execOp hinv1 hstep
    exact Shadow_read (Shadow_execOps hinv2 hsh2 hkeys h2).1

/-- A concrete run of `c4_delete_visibility`: capacity 1, segment size 2,
sparse offset 1; `write k1 a; delete k1; write k2 b` flushes the
tombstone into a segment and merges, and `read k1` still comes back
empty. -/
theorem c4_delete_visibility_witness :
    (∀ op ∈ [Op.write "k2" "b"], op.key ≠ "k1") ∧
    execOps (LSMEngine.new 1 2 1 none)
      ([Op.write "k1" "a"] ++ Op.delete "k1" :: [Op.write "k2" "b"]) =
      .ok ⟨⟨[("k2", "b")], 1⟩,
           [⟨[⟨"k1", TOMBSTONE_VALUE⟩], some "k1", 1⟩], 2,
           [("k1", (0, 0))], 1, none, 2⟩ ∧
    LSMEngine.read
      ⟨⟨[("k2", "b")], 1⟩, [⟨[⟨"k1", TOMBSTONE_VALUE⟩], some "k1", 1⟩], 2,
       [("k1", (0, 0))], 1, none, 2⟩ "k1" = none :=
  ⟨by decide, rfl,
   c4_delete_visibility 1 2 1 none [Op.write "k1" "a"] [Op.write "k2" "b"] "k1" _
     (by decide) rfl⟩
